import Mathlib

/-! # go-yaml-to-jsonschema: the schema builders of `main.go`

A shallow embedding of the tag interpreter (`extractFromTag`), the array and
struct schema builders (`parseArrayType`, `parseStructType`) and the definition
merger (`mergeDefinitions`) of `src/main.go`, followed by the theorems that
settle the claims of the specification about them.

Conventions of the embedding.

* A Go `string` is a Lean `String`; the library routines that inspect it work on
  its sequence of runes (`String.data`).  Go source text is valid UTF-8, so a tag
  literal, an identifier or a doc comment is such a sequence.
* A Go panic (a failed type assertion, a nil dereference, `log.Panic`, an index
  out of range) is the value `none`; a function that can panic returns `Option`.
* A pointer to a `Definition` that the builders allocate and own is the
  `Definition` value itself, `nil` being `none`; `mergeDefinitions`, which writes
  through a pointer it is handed, runs on an explicit store of cells.
* A Go map is an association list read by its first entry for a key and written
  by replacing that entry, so a list built by writes holds a key once.
-/

set_option autoImplicit false
set_option linter.unusedVariables false

namespace GoSchema

/-! ## The Go library routines the tag interpreter calls -/

/-- White space of the Go library: `unicode.IsSpace`, which `strings.TrimSpace`
uses, and the `space` table of `fmt/scan.go` list the same code points. -/
def isSpace (r : Char) : Bool :=
  let n := r.toNat
  (0x09 ≤ n && n ≤ 0x0d) || n == 0x20 || n == 0x85 || n == 0xa0 || n == 0x1680 ||
    (0x2000 ≤ n && n ≤ 0x200a) || n == 0x2028 || n == 0x2029 || n == 0x202f ||
    n == 0x205f || n == 0x3000

/-- Go `strings.TrimSpace`: the leading and the trailing white space removed. -/
def TrimSpace (s : List Char) : List Char :=
  ((s.dropWhile isSpace).reverse.dropWhile isSpace).reverse

/-- Go `strings.Contains(s, ",")`, for a one-rune separator. -/
def Contains (s : List Char) (sep : Char) : Bool :=
  s.elem sep

/-- Go `strings.Split(s, sep)` for a one-rune separator: the pieces between the
separators, one more than there are separators. -/
def Split : List Char → Char → List (List Char)
  | [], _ => [[]]
  | c :: cs, sep =>
    if c = sep then [] :: Split cs sep
    else
      match Split cs sep with
      | [] => [[c]]
      | p :: ps => (c :: p) :: ps

/-- The method `ss.SkipSpace` of `fmt/scan.go` as `Sscanf` runs it (a newline does
not count as space there): the input left, or `none` for the scan error
"unexpected newline". -/
def SkipSpace : List Char → Option (List Char)
  | [] => some []
  | r :: rest =>
    if r = '\r' ∧ rest.head? = some '\n' then SkipSpace rest
    else if r = '\n' then none
    else if !isSpace r then some (r :: rest)
    else SkipSpace rest

/-- The literal runes of a format in `ss.advance`: each must be the next rune of
the input; `none` is the scan error (end of input, or "input does not match
format"). -/
def advanceLiteral : List Char → List Char → Option (List Char)
  | [], input => some input
  | _ :: _, [] => none
  | fmtc :: format, inputc :: input =>
    if fmtc = inputc then advanceLiteral format input else none

/-- A lone space of a format in `ss.advance` (no newline beside it): the input is
at its end, or gives at least one space that is no newline, and the spaces up to
the next newline are consumed. -/
def advanceSpace : List Char → Option (List Char)
  | [] => some []
  | inputc :: input =>
    if !isSpace inputc then none
    else if inputc = '\n' then none
    else some (input.dropWhile fun r => isSpace r && r != '\n')

/-- The call `ss.token(true, notSpace)`: the next word of the input. -/
def token (input : List Char) : Option (List Char) :=
  (SkipSpace input).map fun rest => rest.takeWhile fun r => !isSpace r

/-- The method `ss.convertString` for the verb `%s`: space is skipped, the input
must not be at its end (`notEOF`), and the next word is read. -/
def convertString (input : List Char) : Option (List Char) :=
  match SkipSpace input with
  | none => none
  | some [] => none
  | some (r :: rest) => token (r :: rest)

/-- The string operand after `fmt.Sscanf(str, "json: %s", &operand)`, the operand
being empty before the call: `doScanf` matches `json:` and the space, skips
space before the verb and stores the word `convertString` reads; on any scan
error nothing is stored (the code drops what `Sscanf` returns).  Inputs are
taken to be shorter than the scanner's limit of 2^30 runes. -/
def Sscanf (str : List Char) : List Char :=
  match (advanceLiteral "json:".data str).bind fun s₁ =>
      (advanceSpace s₁).bind fun s₂ => (SkipSpace s₂).bind convertString with
  | some word => word
  | none => []

/-! ## The syntax tree handed over by `go/parser` -/

/-- The nodes of `go/ast` that stand for a type expression, as far as the builders
tell them apart; `other` is any node kind they have no case for (a function,
channel or struct type, a parenthesised expression, ...). -/
inductive Expr where
  | Ident (Name : String)
  | StarExpr (X : Expr)
  | ArrayType (Elt : Expr)
  | MapType (Key Value : Expr)
  | SelectorExpr (X : Expr) (Sel : String)
  | InterfaceType
  | other

/-- The node `ast.BasicLit` of a field tag: `Value` is the literal as written in the
source, its delimiters included. -/
structure BasicLit where
  Value : String

/-- The node `ast.Field`: `Doc` is the text `field.Doc.Text()` gives (empty for a
field without doc comment), `Tag` is `none` for a field without tag. -/
structure Field where
  Doc : String
  Type_ : Expr
  Tag : Option BasicLit

/-! ## Declarations of the repository that `main.go` uses -/

/-- Modelled from the spec: the record type `Definition` is declared outside
`src/main.go`; its attributes are those of the data model (`type`, `ref`,
`items`, `properties`, `required`, `additionalProperties`, `allOf`,
`description`), named as `main.go` names them (`Typ` for the field `Type`).  An
absent string is `""`, a nil slice is `[]`, a nil pointer or a nil map is
`none`. -/
structure Definition where
  Items : Option Definition
  Required : List String
  Properties : Option (List (String × Definition))
  AdditionalProperties : Option Definition
  AllOf : List Definition
  Typ : String
  Ref : String
  Description : String

/-- Modelled from the spec: the predicate `isSimpleType` (the predefined set of
scalar names of the source language) and the mapping `jsonifyType` (to the
JSON-Schema primitive name) are declared outside `src/main.go`; the builders
take them as given. -/
structure Primitives where
  isSimpleType : String → Bool
  jsonifyType : String → String

/-- Modelled from the spec: a table of primitives to evaluate the builders on, with
the pair the spec spells out (the string scalar is `"string"`) and the integer
and boolean scalars under their JSON-Schema names. -/
def goPrimitives : Primitives where
  isSimpleType := fun typeName => typeName = "string" || typeName = "int" || typeName = "bool"
  jsonifyType := fun typeName =>
    if typeName = "string" then "string"
    else if typeName = "int" then "integer"
    else if typeName = "bool" then "boolean"
    else ""

/-! ## Go maps with string keys -/

/-- The read `m[key]` of a Go map: the entry and whether there is one. -/
def mapGet {β : Type} : List (String × β) → String → Option β
  | [], _ => none
  | (k, v) :: rest, key => if k = key then some v else mapGet rest key

/-- The write `m[key] = value` of a Go map. -/
def mapSet {β : Type} : List (String × β) → String → β → List (String × β)
  | [], key, value => [(key, value)]
  | (k, v) :: rest, key, value =>
    if k = key then (key, value) :: rest else (k, v) :: mapSet rest key value

/-- The keys of a Go map. -/
def mapKeys {β : Type} (m : List (String × β)) : List String :=
  m.map Prod.fst

/-! ## `main.go` -/

/-- The value `new(Definition)`: every attribute absent. -/
def Definition.new : Definition :=
  { Items := none, Required := [], Properties := none, AdditionalProperties := none,
    AllOf := [], Typ := "", Ref := "", Description := "" }

/-- The constant `defPrefix`. -/
def defPrefix : String := "#/definitions/"

/-- Removes a character by replacing it with a space: `strings.Replace(str,
removedStr, " ", -1)`; both callers pass a string of one rune. -/
def removeChar (str : List Char) (removedStr : Char) : List Char :=
  str.map fun c => if c = removedStr then ' ' else c

/-- Extracts the tag values: the pair (name, option) of the `json` key. -/
def extractFromTag (tag : Option BasicLit) : Option (String × String) :=
  match tag with
  | none => none
  | some lit =>
    if lit.Value = "" then none
    else
      let tagValue := removeChar lit.Value.data '\x60'
      let tagValue := removeChar tagValue '"'
      let tagValue := TrimSpace tagValue
      let yamlTagContent := Sscanf tagValue
      if Contains yamlTagContent ',' then
        match Split yamlTagContent ',' with
        | p₀ :: p₁ :: _ => some (String.mk p₀, String.mk p₁)
        | _ => none
      else some (String.mk yamlTagContent, "")

/-- Gets the schema definition link of a resource. -/
def getDefLink (resourceName : String) : String :=
  defPrefix ++ resourceName

/-- Gets the type name of the array, from the element type `arrayType.Elt`: a type
assertion that fails and the `panic("undefined type")` are `none`. -/
def getTypeNameOfArray (Elt : Expr) : Option String :=
  match Elt with
  | .Ident Name => some Name
  | .StarExpr (.Ident Name) => some Name
  | .StarExpr _ => none
  | _ => none

/-- Parses array type (given by its element type `arrayType.Elt`) and returns its
corresponding schema definition. -/
def parseArrayType (P : Primitives) (Elt : Expr) : Option Definition :=
  match getTypeNameOfArray Elt with
  | none => none
  | some typeNameOfArray =>
    let items :=
      if P.isSimpleType typeNameOfArray then
        { Definition.new with Typ := P.jsonifyType typeNameOfArray }
      else { Definition.new with Ref := getDefLink typeNameOfArray }
    some { Definition.new with Items := some items, Typ := "array" }

/-- The local variables of `parseStructType` that its loop over the fields
updates. -/
structure LoopState where
  definition : Definition
  inlineDefinitions : List Definition
  externalTypes : List (String × List String)

/-- The type switch of `parseStructType` (lines 149-211) on the type of a field
that is not inlined: the property fragment and the external-type index after
it. -/
def classifyFieldType (P : Primitives) (fieldType : Expr)
    (externalTypes : List (String × List String)) :
    Option (Definition × List (String × List String)) :=
  let property := Definition.new
  match fieldType with
  | .Ident typeName =>
    if P.isSimpleType typeName then
      some ({ property with Typ := P.jsonifyType typeName }, externalTypes)
    else some ({ property with Ref := getDefLink typeName }, externalTypes)
  | .ArrayType Elt =>
    match parseArrayType P Elt with
    | none => none
    | some arrayDef => some (arrayDef, externalTypes)
  | .MapType _ (.Ident Name) =>
    let additionalProperties :=
      if P.isSimpleType Name then { Definition.new with Typ := Name }
      else { Definition.new with Ref := getDefLink Name }
    some ({ property with AdditionalProperties := some additionalProperties, Typ := "object" },
      externalTypes)
  | .MapType _ _ => some ({ property with Typ := "object" }, externalTypes)
  | .SelectorExpr (.Ident pfx) typeName =>
    some ({ property with Ref := getDefLink typeName },
      mapSet externalTypes pfx (((mapGet externalTypes pfx).getD []) ++ [typeName]))
  | .SelectorExpr _ _ => none
  | .StarExpr (.Ident typeName) =>
    if P.isSimpleType typeName then
      some ({ property with Typ := P.jsonifyType typeName }, externalTypes)
    else some ({ property with Ref := getDefLink typeName }, externalTypes)
  | .StarExpr _ => some (property, externalTypes)
  | _ => some (property, externalTypes)

/-- The type name an inlined field refers to (lines 132-138): the variable stays
empty when the field type is neither an identifier nor a pointer. -/
def inlineTypeName (fieldType : Expr) : Option String :=
  match fieldType with
  | .Ident Name => some Name
  | .StarExpr (.Ident Name) => some Name
  | .StarExpr _ => none
  | _ => some ""

/-- The write `definition.Properties[key] = property`; writing to a nil map
panics. -/
def setProperty (definition : Definition) (key : String) (property : Definition) :
    Option Definition :=
  match definition.Properties with
  | none => none
  | some m => some { definition with Properties := some (mapSet m key property) }

/-- One round of the loop of `parseStructType` (lines 124-217). -/
def parseField (P : Primitives) (st : LoopState) (field : Field) : Option LoopState :=
  match extractFromTag field.Tag with
  | none => none
  | some (yamlFieldName, option) =>
    if option = "inline" then
      match inlineTypeName field.Type_ with
      | none => none
      | some typeName =>
        let inlinedDef := { Definition.new with Ref := getDefLink typeName }
        some { st with inlineDefinitions := st.inlineDefinitions ++ [inlinedDef] }
    else
      let definition :=
        if option ≠ "omitempty" then
          { st.definition with Required := st.definition.Required ++ [yamlFieldName] }
        else st.definition
      match classifyFieldType P field.Type_ st.externalTypes with
      | none => none
      | some (property, externalTypes) =>
        let property := { property with Description := field.Doc }
        match setProperty definition yamlFieldName property with
        | none => none
        | some definition =>
          some { st with definition := definition, externalTypes := externalTypes }

/-- The loop of `parseStructType` over the field list, in declaration order. -/
def parseFields (P : Primitives) : List Field → LoopState → Option LoopState
  | [], st => some st
  | field :: rest, st =>
    match parseField P st field with
    | none => none
    | some st₁ => parseFields P rest st₁

/-- The number of entries `len(m)` of a map that may be nil. -/
def mapLen {β : Type} (m : Option (List (String × β))) : Nat :=
  match m with
  | none => 0
  | some entries => entries.length

/-- The local variables of `parseStructType` before its loop (lines 117-122): the
object Definition carries the description, an empty properties map and an empty
`required`; there is no inline Definition and no external type yet. -/
def initialState (typeDescription : String) : LoopState :=
  { definition :=
      { Definition.new with
        Description := typeDescription, Properties := some [], Required := [] },
    inlineDefinitions := [],
    externalTypes := [] }

/-- Parses a struct type (given by its field list `structType.Fields.List`) and
returns its corresponding schema definition and the external-type index. -/
def parseStructType (P : Primitives) (structType : List Field) (typeName : String)
    (typeDescription : String) : Option (Definition × List (String × List String)) :=
  match parseFields P structType (initialState typeDescription) with
  | none => none
  | some st =>
    if st.inlineDefinitions.length = 0 then some (st.definition, st.externalTypes)
    else
      let parentDefinition := { Definition.new with AllOf := st.inlineDefinitions }
      let parentDefinition :=
        if mapLen st.definition.Properties ≠ 0 then
          { parentDefinition with AllOf := st.inlineDefinitions ++ [st.definition] }
        else parentDefinition
      some (parentDefinition, st.externalTypes)

/-- The cells that the pointers handed to `mergeDefinitions` refer to: an address
without a cell is a nil pointer. -/
def Store : Type := Nat → Option Definition

/-- The store after an assignment through the pointer `p`. -/
def Store.write (σ : Store) (p : Nat) (d : Definition) : Store :=
  fun q => if q = p then some d else σ q

/-- The loop `for propKey, propValue := range rhsDef.Properties` of
`mergeDefinitions`, over the entries of the source map. -/
def mergeProperties : List (String × Definition) → Definition → Option Definition
  | [], lhs => some lhs
  | (propKey, propValue) :: rest, lhs =>
    match setProperty lhs propKey propValue with
    | none => none
    | some lhs₁ => mergeProperties rest lhs₁

/-- Merges the properties from the cell `rhsDef` to the cell `lhsDef` and
transfers the description as well; the two pointers may be the same. -/
def mergeDefinitions (σ : Store) (lhsDef rhsDef : Nat) : Option Store :=
  match σ lhsDef with
  | none => none
  | some lhs =>
    let lhs₁ : Definition :=
      match lhs.Properties with
      | none => { lhs with Properties := some [] }
      | some _ => lhs
    let σ₁ := σ.write lhsDef lhs₁
    match σ₁ rhsDef with
    | none => none
    | some rhs =>
      match mergeProperties (rhs.Properties.getD []) lhs₁ with
      | none => none
      | some lhs₂ =>
        let σ₂ := σ₁.write lhsDef lhs₂
        match σ₂ rhsDef with
        | none => none
        | some rhs₂ =>
          if lhs₂.Description.length = 0 then
            some (σ₂.write lhsDef { lhs₂ with Description := rhs₂.Description })
          else some σ₂

/-! ## Vocabulary of the claims -/

/-- A word: no rune of it is white space. -/
def isWord (s : List Char) : Prop := ∀ c ∈ s, isSpace c = false

/-- The serialized name of a field: the first component of what `extractFromTag`
returns for its tag. -/
def fieldName (field : Field) : String :=
  match extractFromTag field.Tag with
  | some (yamlFieldName, _) => yamlFieldName
  | none => ""

/-- The tag option of a field: the second component of what `extractFromTag`
returns for its tag. -/
def fieldOption (field : Field) : String :=
  match extractFromTag field.Tag with
  | some (_, option) => option
  | none => ""

/-- An inlined field: its tag option is `inline`. -/
def isInlined (field : Field) : Bool :=
  decide (fieldOption field = "inline")

/-- An own field: one that is not inlined. -/
def isOwn (field : Field) : Bool :=
  !isInlined field

/-- The serialized names of the fields whose tag option is neither `inline` nor
`omitempty`, in declaration order. -/
def requiredNames (fields : List Field) : List String :=
  (fields.filter fun field =>
    isOwn field && decide (fieldOption field ≠ "omitempty")).map fieldName

/-- The inline reference Definition of a field: only `ref` is set, to the link of
the field's type name. -/
def inlineReference (field : Field) : Definition :=
  { Definition.new with Ref := defPrefix ++ (inlineTypeName field.Type_).getD "" }

/-- The object Definition within what `parseStructType` returns: the returned
Definition when its `allOf` is empty, otherwise the trailing member of `allOf`. -/
def objectDefinition (d : Definition) : Definition :=
  match d.AllOf.getLast? with
  | none => d
  | some member => member

/-- The entry of a key in the properties of a Definition, if there is one. -/
def propertyOf (d : Definition) (key : String) : Option Definition :=
  match d.Properties with
  | none => none
  | some m => mapGet m key

/-! ## Sample declarations -/

/-- The raw literal of a tag that holds the `json` key with the given value. -/
def jsonTag (value : String) : Option BasicLit :=
  some ⟨"\x60json:\"" ++ value ++ "\"\x60"⟩

/-- The fields of a struct `Widget`: the embedded types `Base` and `*Meta`, both
inlined, then `Name string` (documented), `Size int` (omitempty) and
`Owner *Owner`. -/
def widgetFields : List Field :=
  [⟨"", .Ident "Base", jsonTag ",inline"⟩,
    ⟨"", .StarExpr (.Ident "Meta"), jsonTag ",inline"⟩,
    ⟨"Name of the widget.\n", .Ident "string", jsonTag "name"⟩,
    ⟨"", .Ident "int", jsonTag "size,omitempty"⟩,
    ⟨"", .StarExpr (.Ident "Owner"), jsonTag "owner"⟩]

/-- The fields of a struct with two inlined embedded types and one own field. -/
def embeddingFields : List Field :=
  [⟨"", .Ident "Base", jsonTag ",inline"⟩,
    ⟨"", .StarExpr (.Ident "Meta"), jsonTag ",inline"⟩,
    ⟨"", .Ident "string", jsonTag "name"⟩]

/-- The fields of a struct whose fields are all inlined. -/
def allInlineFields : List Field :=
  [⟨"", .Ident "Base", jsonTag ",inline"⟩,
    ⟨"", .StarExpr (.Ident "Meta"), jsonTag ",inline"⟩]

/-- The fields of a struct whose second field has a tag node built by hand, with
the empty string for `Value`. -/
def emptyTagFields : List Field :=
  [⟨"", .Ident "string", jsonTag "name"⟩,
    ⟨"", .Ident "int", some ⟨""⟩⟩,
    ⟨"", .Ident "bool", jsonTag "done"⟩]

/-- The fields of a struct whose second field has an empty tag literal: the node
that `go/parser` builds for it holds the two backticks of the literal. -/
def emptyLiteralFields : List Field :=
  [⟨"", .Ident "string", jsonTag "name"⟩,
    ⟨"", .Ident "int", some ⟨"\x60\x60"⟩⟩,
    ⟨"", .Ident "bool", jsonTag "done"⟩]

/-- The field `Sizes map[string]int` with the tag value `sizes`. -/
def mapField : Field :=
  ⟨"", .MapType (.Ident "string") (.Ident "int"), jsonTag "sizes"⟩

/-- The field `Spec *pkg.Spec` with the tag value `spec`. -/
def qualifiedPointerField : Field :=
  ⟨"", .StarExpr (.SelectorExpr (.Ident "pkg") "Spec"), jsonTag "spec"⟩

/-- A target of a merge: the properties `a` and `b`, no description. -/
def sampleTarget : Definition :=
  { Definition.new with
    Properties := some [("a", { Definition.new with Typ := "string" }),
      ("b", { Definition.new with Typ := "integer" })],
    Required := ["a"] }

/-- A source of a merge: the properties `b` and `c`, and a description. -/
def sampleSource : Definition :=
  { Definition.new with
    Properties := some [("b", { Definition.new with Ref := "#/definitions/B" }),
      ("c", { Definition.new with Typ := "boolean" })],
    Description := "The source." }

/-- A store with the sample target in cell 0 and the sample source in cell 1. -/
def sampleStore : Store :=
  fun p => if p = 0 then some sampleTarget else if p = 1 then some sampleSource else none

/-- The fields of a struct with one inlined qualified identifier `pkg.Base` and one
own field. -/
def qualifiedInlineFields : List Field :=
  [⟨"", .SelectorExpr (.Ident "pkg") "Base", jsonTag ",inline"⟩,
    ⟨"", .Ident "string", jsonTag "name"⟩]

/-- The prefix and the name of a type expression that is a qualified identifier. -/
def qualifiedOf (fieldType : Expr) : Option (String × String) :=
  match fieldType with
  | .SelectorExpr (.Ident pfx) Name => some (pfx, Name)
  | _ => none

/-- The names `N` of the own fields whose type is the qualified identifier `p.N`,
in declaration order. -/
def qualifiedNames (p : String) (fields : List Field) : List String :=
  (fields.filter isOwn).filterMap fun field =>
    match qualifiedOf field.Type_ with
    | some (pfx, Name) => if pfx = p then some Name else none
    | none => none

/-- A Definition found within a Definition: the Definition itself, its `items`, its
`additionalProperties`, a member of its `allOf`, an entry of its `properties`,
or a Definition found within one of those. -/
inductive Nested : Definition → Definition → Prop where
  | self (d : Definition) : Nested d d
  | items (d i e : Definition) : d.Items = some i → Nested i e → Nested d e
  | additionalProperties (d a e : Definition) :
    d.AdditionalProperties = some a → Nested a e → Nested d e
  | allOf (d m e : Definition) : m ∈ d.AllOf → Nested m e → Nested d e
  | properties (d : Definition) (entries : List (String × Definition)) (key : String)
    (v e : Definition) :
    d.Properties = some entries → (key, v) ∈ entries → Nested v e → Nested d e

/-- The fields of a struct with two fields of qualified type under the prefix `pkg`,
one under the prefix `meta`, and an inlined one that is not registered. -/
def qualifiedFields : List Field :=
  [⟨"", .SelectorExpr (.Ident "pkg") "Spec", jsonTag "spec"⟩,
    ⟨"", .SelectorExpr (.Ident "meta") "Time", jsonTag "created,omitempty"⟩,
    ⟨"", .SelectorExpr (.Ident "pkg") "Base", jsonTag ",inline"⟩,
    ⟨"", .SelectorExpr (.Ident "pkg") "Status", jsonTag "status"⟩]

/-- The target after `mergeDefinitions(target, source)`, the two held in different
cells or being one Definition: the properties take the entries of the source
one after the other, the description that of the source when it was empty. -/
def mergeResult (target source : Definition) : Definition :=
  { target with
    Properties := some ((source.Properties.getD []).foldl
      (fun acc e => mapSet acc e.1 e.2) (target.Properties.getD [])),
    Description :=
      if target.Description.length = 0 then source.Description
      else target.Description }

/-- Modelled from the spec: the accumulation loop of the Schema Flattener, which is
declared outside `src/main.go`: the members of an `allOf`, held in the cells
`members`, are merged into the accumulator cell in sequence order, member 0
first, each by `mergeDefinitions`. -/
def mergeMembers : Store → Nat → List Nat → Option Store
  | σ, _, [] => some σ
  | σ, accumulator, member :: rest =>
    match mergeDefinitions σ accumulator member with
    | none => none
    | some σ₁ => mergeMembers σ₁ accumulator rest

/-- A store with an empty Definition in cell 0 and, from cell 1 on, the members of
the `allOf` that `parseStructType` returns for the struct with two inlined types
and one own field. -/
def flattenStore : Store :=
  fun p =>
    match p with
    | 0 => some Definition.new
    | q + 1 =>
      match parseStructType goPrimitives embeddingFields "Widget" "A widget.\n" with
      | some (d, _) => d.AllOf[q]?
      | none => none

/-- At most one of `type`, `ref` and `allOf` is set: not both `type` and `ref`, and
neither of them together with `allOf`. -/
def atMostOneShape (e : Definition) : Prop :=
  (e.Typ = "" ∨ e.Ref = "") ∧ (e.AllOf ≠ [] → e.Typ = "" ∧ e.Ref = "")

/-- The shape of the `items` and of the `additionalProperties` that the builders
produce: no Definition within, no `allOf`, and not both `type` and `ref`. -/
def isLeafShape (e : Definition) : Prop :=
  e.Items = none ∧ e.AdditionalProperties = none ∧ e.AllOf = [] ∧ e.Properties = none ∧
    (e.Typ = "" ∨ e.Ref = "")

/-- The shape of a property fragment that the type switch produces: no `allOf`, no
`properties`, not both `type` and `ref`, and `items` and `additionalProperties`
of leaf shape. -/
def isFragmentShape (v : Definition) : Prop :=
  v.AllOf = [] ∧ v.Properties = none ∧ (v.Typ = "" ∨ v.Ref = "") ∧
    (∀ i, v.Items = some i → isLeafShape i) ∧
    (∀ a, v.AdditionalProperties = some a → isLeafShape a)

/-- The fields of a struct with the single field `Name string`. -/
def nameFields : List Field :=
  [⟨"", .Ident "string", jsonTag "name"⟩]

/-- The leaf shape: `type` set, no `ref`, no `allOf`, and no `items`, which
tells it from the array shape. -/
def isLeaf (e : Definition) : Prop :=
  e.Typ ≠ "" ∧ e.Ref = "" ∧ e.AllOf = [] ∧ e.Items = none

/-- The reference shape: `ref` set, no `type`, no `allOf`, no `items`. -/
def isReference (e : Definition) : Prop :=
  e.Ref ≠ "" ∧ e.Typ = "" ∧ e.AllOf = [] ∧ e.Items = none

/-- The array shape: `type` is `array` and `items` is set; no `ref`, no `allOf`. -/
def isArray (e : Definition) : Prop :=
  e.Typ = "array" ∧ e.Items.isSome = true ∧ e.Ref = "" ∧ e.AllOf = []

/-- The composite shape: `allOf` set, no `type`, no `ref`, no `items`. -/
def isComposite (e : Definition) : Prop :=
  e.AllOf ≠ [] ∧ e.Typ = "" ∧ e.Ref = "" ∧ e.Items = none

/-- One of the four shapes. -/
def inOneShape (e : Definition) : Prop :=
  isLeaf e ∨ isReference e ∨ isArray e ∨ isComposite e

/-- The type expressions the type switch has a rule for: an identifier, a pointer
to an identifier, an array, a map and a qualified identifier. -/
def hasRule (fieldType : Expr) : Bool :=
  match fieldType with
  | .Ident _ => true
  | .StarExpr (.Ident _) => true
  | .ArrayType _ => true
  | .MapType _ _ => true
  | .SelectorExpr _ _ => true
  | _ => false

/-- The shape of the `items` and `additionalProperties` under a rule: a leaf or a
reference with no Definition within. -/
def isBareLeaf (i : Definition) : Prop :=
  i.Items = none ∧ i.AdditionalProperties = none ∧ i.AllOf = [] ∧ i.Properties = none ∧
    (isLeaf i ∨ isReference i)

/-- The shape of a property fragment under a rule: a leaf, a reference or an array,
without `allOf` and `properties`, whose `items` and `additionalProperties` are
bare leaves. -/
def isRuledFragment (v : Definition) : Prop :=
  v.AllOf = [] ∧ v.Properties = none ∧ (isLeaf v ∨ isReference v ∨ isArray v) ∧
    (∀ i, v.Items = some i → isBareLeaf i) ∧
    (∀ a, v.AdditionalProperties = some a → isBareLeaf a)

/-- The fields of a struct with the single field `Any interface{}`, a type the
type switch has no case for. -/
def anyFields : List Field :=
  [⟨"", .InterfaceType, jsonTag "any"⟩]

/-! ## The tag interpreter -/

theorem isSpace_space : isSpace ' ' = true := by decide

theorem removeChar_of_not_mem (s : List Char) (x : Char) (h : ∀ c ∈ s, c ≠ x) :
    removeChar s x = s := by
  induction s with
  | nil => rfl
  | cons c cs ih =>
    have hc : c ≠ x := h c (List.mem_cons_self _ _)
    have hcs : removeChar cs x = cs := ih fun d hd => h d (List.mem_cons_of_mem _ hd)
    simp only [removeChar, List.map_cons, if_neg hc] at hcs ⊢
    rw [hcs]

theorem removeChar_append (s t : List Char) (x : Char) :
    removeChar (s ++ t) x = removeChar s x ++ removeChar t x := by
  simp [removeChar]

theorem dropWhile_isSpace_word (c : Char) (cs : List Char) (h : isSpace c = false) :
    (c :: cs).dropWhile isSpace = c :: cs := by
  simp [List.dropWhile, h]

theorem takeWhile_notSpace_word (s : List Char) (h : isWord s) :
    s.takeWhile (fun r => !isSpace r) = s := by
  induction s with
  | nil => rfl
  | cons c cs ih =>
    have hc : isSpace c = false := h c (List.mem_cons_self _ _)
    have hcs := ih fun d hd => h d (List.mem_cons_of_mem _ hd)
    simp [List.takeWhile, hc, hcs]

theorem SkipSpace_word (c : Char) (cs : List Char) (h : isSpace c = false) :
    SkipSpace (c :: cs) = some (c :: cs) := by
  have h₁ : c ≠ '\r' := by
    rintro rfl
    exact absurd h (by decide)
  have h₂ : c ≠ '\n' := by
    rintro rfl
    exact absurd h (by decide)
  simp [SkipSpace, h, h₁, h₂]

/-- The scan of `json: ` followed by a word gives the word. -/
theorem Sscanf_json_word (v : List Char) (hne : v ≠ []) (hw : isWord v) :
    Sscanf ("json:".data ++ ' ' :: v) = v := by
  obtain ⟨c, cs, rfl⟩ := List.exists_cons_of_ne_nil hne
  have hc : isSpace c = false := hw c (List.mem_cons_self _ _)
  have h₁ : advanceLiteral "json:".data ("json:".data ++ ' ' :: c :: cs) = some (' ' :: c :: cs) := by
    simp [advanceLiteral]
  have h₂ : advanceSpace (' ' :: c :: cs) = some (c :: cs) := by
    simp [advanceSpace, isSpace_space, List.dropWhile, hc]
  have h₃ := SkipSpace_word c cs hc
  have h₄ : convertString (c :: cs) = some (c :: cs) := by
    simp [convertString, token, h₃, takeWhile_notSpace_word (c :: cs) hw]
  simp only [Sscanf, h₁, Option.some_bind, h₂, h₃, h₄]

/-- The string `TrimSpace` leaves of a word between runs of spaces. -/
theorem TrimSpace_padded (v : List Char) (hne : v ≠ []) (hw : isWord v) (n m : Nat) :
    TrimSpace (List.replicate n ' ' ++ ("json:".data ++ ' ' :: v) ++ List.replicate m ' ') =
      "json:".data ++ ' ' :: v := by
  have hdrop : ∀ (k : Nat) (l : List Char),
      (List.replicate k ' ' ++ l).dropWhile isSpace = l.dropWhile isSpace := by
    intro k l
    induction k with
    | zero => rfl
    | succ k ih => simp [List.replicate_succ, List.dropWhile, isSpace_space, ih]
  have hrev : v.reverse ≠ [] := by simpa using hne
  obtain ⟨c, cs, hcs⟩ := List.exists_cons_of_ne_nil hrev
  have hc : isSpace c = false := by
    apply hw
    have : c ∈ v.reverse := by rw [hcs]; exact List.mem_cons_self _ _
    simpa using this
  unfold TrimSpace
  rw [List.append_assoc, hdrop]
  have hj : ("json:".data ++ ' ' :: v ++ List.replicate m ' ').dropWhile isSpace =
      "json:".data ++ ' ' :: v ++ List.replicate m ' ' := by
    exact dropWhile_isSpace_word 'j' _ (by decide)
  rw [hj, List.reverse_append, List.reverse_replicate, hdrop, List.reverse_append,
    List.reverse_cons, hcs]
  rw [List.append_assoc, List.cons_append, dropWhile_isSpace_word c _ hc, ← List.cons_append,
    ← hcs]
  simp

/-- The pieces of `Split`: the text before the first separator, then the pieces of
the text after it. -/
theorem Split_eq (s : List Char) (sep : Char) :
    Split s sep = s.takeWhile (fun c => c != sep) ::
      (if sep ∈ s then Split ((s.dropWhile fun c => c != sep).drop 1) sep else []) := by
  induction s with
  | nil => simp [Split]
  | cons c cs ih =>
    by_cases hc : c = sep
    · subst hc
      simp [Split, List.takeWhile, List.dropWhile]
    · have hne : sep ≠ c := fun h => hc h.symm
      have hb : (c != sep) = true := by simpa using hc
      rw [Split, if_neg hc, ih]
      simp [List.takeWhile, List.dropWhile, hb, hne]

/-- The tag value after the delimiters are blanked and the ends trimmed, for the
raw literal of a `json` key that holds the word `v`. -/
theorem tagValue_json_word (v : List Char) (hne : v ≠ []) (hw : isWord v)
    (hq : ∀ c ∈ v, c ≠ '"') (hb : ∀ c ∈ v, c ≠ '\x60') :
    TrimSpace (removeChar (removeChar ("\x60json:\"".data ++ v ++ "\"\x60".data) '\x60') '"') =
      "json:".data ++ ' ' :: v := by
  have h₁ : removeChar (removeChar v '\x60') '"' = v := by
    rw [removeChar_of_not_mem v _ hb, removeChar_of_not_mem v _ hq]
  have h₂ : removeChar (removeChar "\x60json:\"".data '\x60') '"' =
      List.replicate 1 ' ' ++ ("json:".data ++ [' ']) := by decide
  have h₃ : removeChar (removeChar "\"\x60".data '\x60') '"' = List.replicate 2 ' ' := by decide
  rw [removeChar_append, removeChar_append, removeChar_append, removeChar_append, h₁, h₂, h₃]
  have h₄ : List.replicate 1 ' ' ++ ("json:".data ++ [' ']) ++ v ++ List.replicate 2 ' ' =
      List.replicate 1 ' ' ++ ("json:".data ++ ' ' :: v) ++ List.replicate 2 ' ' := by
    simp
  rw [h₄]
  exact TrimSpace_padded v hne hw 1 2

/-- C1: for the raw tag literal of a `json` key whose value `V` is non-empty and
holds no white space, no double quote and no backtick, `extractFromTag` returns
`(V, "")` when `V` has no comma, and otherwise the text of `V` before its first
comma paired with the text between that comma and the next one (the first
option), whatever follows. -/
theorem extractFromTag_json (V : String) (hne : V ≠ "")
    (hV : ∀ c ∈ V.data, isSpace c = false ∧ c ≠ '"' ∧ c ≠ '\x60') :
    extractFromTag (some ⟨"\x60json:\"" ++ V ++ "\"\x60"⟩) =
      some (if ',' ∈ V.data then
          (String.mk (V.data.takeWhile fun c => c != ','),
            String.mk (((V.data.dropWhile fun c => c != ',').drop 1).takeWhile
              fun c => c != ','))
        else (V, "")) := by
  have hv : V.data ≠ [] := by
    intro h
    apply hne
    cases V
    simp_all
  have hlit : ("\x60json:\"" ++ V ++ "\"\x60" : String) ≠ "" := by
    intro h
    have := congrArg String.length h
    simp only [String.length_append] at this
    have h₂ : ("\"\x60" : String).length = 2 := by decide
    have h₃ : ("" : String).length = 0 := rfl
    omega
  have hdata : ("\x60json:\"" ++ V ++ "\"\x60" : String).data =
      "\x60json:\"".data ++ V.data ++ "\"\x60".data := by
    simp [String.data_append]
  have hw : isWord V.data := fun c hc => (hV c hc).1
  have hcore := tagValue_json_word V.data hv hw (fun c hc => (hV c hc).2.1)
    (fun c hc => (hV c hc).2.2)
  unfold extractFromTag
  simp only [if_neg hlit, hdata, hcore, Sscanf_json_word V.data hv hw]
  by_cases hc : ',' ∈ V.data
  · have hcont : Contains V.data ',' = true := by simpa [Contains] using hc
    rw [if_pos hcont, if_pos hc, Split_eq V.data ',', if_pos hc, Split_eq _ ',']
  · have hcont : ¬ (Contains V.data ',' = true) := by simpa [Contains] using hc
    rw [if_neg hcont, if_neg hc]

/-- C1 on its two examples and on a tag with a second option, which is dropped. -/
theorem extractFromTag_json_witness :
    extractFromTag (some ⟨"\x60json:\"name\"\x60"⟩) = some ("name", "") ∧
      extractFromTag (some ⟨"\x60json:\"name,omitempty\"\x60"⟩) = some ("name", "omitempty") ∧
      extractFromTag (some ⟨"\x60json:\"name,omitempty,string\"\x60"⟩) =
        some ("name", "omitempty") :=
  ⟨extractFromTag_json "name" (by decide) (by decide),
    extractFromTag_json "name,omitempty" (by decide) (by decide),
    extractFromTag_json "name,omitempty,string" (by decide) (by decide)⟩

/-! ## The array schema builder -/

/-- C4: for an array type whose element is an identifier `T` or a pointer to an
identifier `T`, `parseArrayType` returns a Definition with type `array` whose
items has type `jsonifyType T` and no ref when `T` is a primitive, and ref
`#/definitions/T` and no type otherwise, every other attribute being unset; so
`[]string` gives items of type `string` once `string` is a primitive mapped to
`string`, and `[]*Widget` gives items with ref `#/definitions/Widget` once
`Widget` is no primitive. -/
theorem parseArrayType_ident (P : Primitives) :
    (∀ T : String, ∀ Elt : Expr, Elt = .Ident T ∨ Elt = .StarExpr (.Ident T) →
      parseArrayType P Elt = some
        { Items := some
            { Items := none, Required := [], Properties := none, AdditionalProperties := none,
              AllOf := [], Typ := if P.isSimpleType T then P.jsonifyType T else "",
              Ref := if P.isSimpleType T then "" else "#/definitions/" ++ T,
              Description := "" },
          Required := [], Properties := none, AdditionalProperties := none, AllOf := [],
          Typ := "array", Ref := "", Description := "" }) ∧
    (P.isSimpleType "string" = true → P.jsonifyType "string" = "string" →
      parseArrayType P (.Ident "string") =
        some { Definition.new with
          Items := some { Definition.new with Typ := "string" }, Typ := "array" }) ∧
    (P.isSimpleType "Widget" = false →
      parseArrayType P (.StarExpr (.Ident "Widget")) =
        some { Definition.new with
          Items := some { Definition.new with Ref := "#/definitions/Widget" },
          Typ := "array" }) := by
  have key : ∀ T : String, ∀ Elt : Expr, Elt = .Ident T ∨ Elt = .StarExpr (.Ident T) →
      parseArrayType P Elt = some
        { Items := some
            { Items := none, Required := [], Properties := none, AdditionalProperties := none,
              AllOf := [], Typ := if P.isSimpleType T then P.jsonifyType T else "",
              Ref := if P.isSimpleType T then "" else "#/definitions/" ++ T,
              Description := "" },
          Required := [], Properties := none, AdditionalProperties := none, AllOf := [],
          Typ := "array", Ref := "", Description := "" } := by
    intro T Elt hElt
    have hname : getTypeNameOfArray Elt = some T := by
      rcases hElt with rfl | rfl <;> rfl
    unfold parseArrayType
    rw [hname]
    by_cases hs : P.isSimpleType T = true
    · simp [hs, Definition.new]
    · simp [hs, Definition.new, getDefLink, defPrefix]
  refine ⟨key, ?_, ?_⟩
  · intro hs hj
    rw [key "string" _ (Or.inl rfl)]
    simp [hs, hj, Definition.new]
  · intro hs
    rw [key "Widget" _ (Or.inr rfl)]
    simp [hs, Definition.new]

/-- C4 on the table `goPrimitives`: the declarations `type Tags []string` and
`type Widgets []*Widget`. -/
theorem parseArrayType_ident_witness :
    parseArrayType goPrimitives (.Ident "string") =
        some { Definition.new with
          Items := some { Definition.new with Typ := "string" }, Typ := "array" } ∧
      parseArrayType goPrimitives (.StarExpr (.Ident "Widget")) =
        some { Definition.new with
          Items := some { Definition.new with Ref := "#/definitions/Widget" },
          Typ := "array" } :=
  ⟨(parseArrayType_ident goPrimitives).2.1 (by decide) (by decide),
    (parseArrayType_ident goPrimitives).2.2 (by decide)⟩

/-! ## The loop of the struct schema builder -/

theorem mapGet_mapSet {β : Type} (m : List (String × β)) (key : String) (value : β)
    (k : String) :
    mapGet (mapSet m key value) k = if k = key then some value else mapGet m k := by
  induction m with
  | nil =>
    by_cases h : k = key
    · simp [mapSet, mapGet, h]
    · have h₂ : ¬ key = k := fun e => h e.symm
      simp [mapSet, mapGet, h, h₂]
  | cons e rest ih =>
    obtain ⟨k₀, v₀⟩ := e
    by_cases h₀ : k₀ = key
    · by_cases h : k = key
      · simp [mapSet, mapGet, h₀, h]
      · have h₂ : ¬ key = k := fun e => h e.symm
        simp [mapSet, mapGet, h₀, h, h₂]
    · by_cases h : k = key
      · subst h
        simp [mapSet, mapGet, h₀, ih]
      · by_cases h₃ : k₀ = k
        · simp [mapSet, mapGet, h₀, h, h₃]
        · simp [mapSet, mapGet, h₀, h, h₃, ih]

theorem mapSet_ne_nil {β : Type} (m : List (String × β)) (key : String) (value : β) :
    mapSet m key value ≠ [] := by
  cases m with
  | nil => simp [mapSet]
  | cons e rest =>
    obtain ⟨k₀, v₀⟩ := e
    by_cases h₀ : k₀ = key <;> simp [mapSet, h₀]

theorem fieldName_of_tag {field : Field} {n o : String}
    (h : extractFromTag field.Tag = some (n, o)) : fieldName field = n := by
  simp [fieldName, h]

theorem fieldOption_of_tag {field : Field} {n o : String}
    (h : extractFromTag field.Tag = some (n, o)) : fieldOption field = o := by
  simp [fieldOption, h]

/-- The round of an inlined field: one inline reference more, nothing else. -/
theorem parseField_inlined (P : Primitives) (st st₁ : LoopState) (field : Field)
    (hin : isInlined field = true) (h : parseField P st field = some st₁) :
    st₁ = { st with inlineDefinitions := st.inlineDefinitions ++ [inlineReference field] } := by
  unfold parseField at h
  cases htag : extractFromTag field.Tag with
  | none => simp [htag] at h
  | some pr =>
    obtain ⟨n, o⟩ := pr
    have ho : o = "inline" := by
      have := fieldOption_of_tag htag
      simpa [isInlined, this] using hin
    simp only [htag, ho, if_true] at h
    cases hty : inlineTypeName field.Type_ with
    | none => simp [hty] at h
    | some typeName =>
      simp only [hty, Option.some.injEq] at h
      rw [← h]
      simp [inlineReference, hty, getDefLink]

/-- The round of an own field: the name joins `required` unless the option is
`omitempty`, and the fragment of the type switch, with the doc comment of the
field for description, is written under the name. -/
theorem parseField_own (P : Primitives) (st st₁ : LoopState) (field : Field)
    (hown : isInlined field = false) (h : parseField P st field = some st₁) :
    ∃ property externalTypes m,
      classifyFieldType P field.Type_ st.externalTypes = some (property, externalTypes) ∧
      st.definition.Properties = some m ∧
      st₁ =
        { definition :=
            { st.definition with
              Required :=
                if fieldOption field ≠ "omitempty" then
                  st.definition.Required ++ [fieldName field]
                else st.definition.Required,
              Properties :=
                some (mapSet m (fieldName field) { property with Description := field.Doc }) },
          inlineDefinitions := st.inlineDefinitions,
          externalTypes := externalTypes } := by
  unfold parseField at h
  cases htag : extractFromTag field.Tag with
  | none => simp [htag] at h
  | some pr =>
    obtain ⟨n, o⟩ := pr
    have hn := fieldName_of_tag htag
    have hopt := fieldOption_of_tag htag
    have ho : ¬ o = "inline" := by
      simpa [isInlined, hopt] using hown
    simp only [htag, if_neg ho] at h
    cases hcl : classifyFieldType P field.Type_ st.externalTypes with
    | none => simp [hcl] at h
    | some res =>
      obtain ⟨property, externalTypes⟩ := res
      simp only [hcl] at h
      cases hpr : st.definition.Properties with
      | none =>
        exfalso
        by_cases hom : o = "omitempty" <;> simp [setProperty, hpr, hom] at h
      | some m =>
        refine ⟨property, externalTypes, m, rfl, rfl, ?_⟩
        rw [hn, hopt]
        by_cases hom : o = "omitempty"
        · simp [setProperty, hpr, hom] at h
          rw [← h]
          simp [hom]
        · simp [setProperty, hpr, hom] at h
          rw [← h]
          simp [hom]

theorem parseFields_cons (P : Primitives) (field : Field) (rest : List Field)
    (st st₂ : LoopState) (h : parseFields P (field :: rest) st = some st₂) :
    ∃ st₁, parseField P st field = some st₁ ∧ parseFields P rest st₁ = some st₂ := by
  unfold parseFields at h
  cases h₁ : parseField P st field with
  | none => simp [h₁] at h
  | some st₁ => exact ⟨st₁, rfl, by simpa [h₁] using h⟩

theorem parseFields_append (P : Primitives) (pre post : List Field) (st st₂ : LoopState)
    (h : parseFields P (pre ++ post) st = some st₂) :
    ∃ st₁, parseFields P pre st = some st₁ ∧ parseFields P post st₁ = some st₂ := by
  induction pre generalizing st with
  | nil => exact ⟨st, rfl, h⟩
  | cons field rest ih =>
    obtain ⟨st₀, h₀, h₁⟩ := parseFields_cons P field (rest ++ post) st st₂ h
    obtain ⟨st₁, h₂, h₃⟩ := ih st₀ h₁
    refine ⟨st₁, ?_, h₃⟩
    simp [parseFields, h₀, h₂]

/-- The round of an own field reads the inline list of the loop state nowhere and
hands it on as it is. -/
theorem parseField_own_inline (P : Primitives) (st : LoopState) (field : Field)
    (il : List Definition) (hown : isInlined field = false) :
    parseField P ⟨st.definition, il, st.externalTypes⟩ field =
      (parseField P st field).map fun s => { s with inlineDefinitions := il } := by
  unfold parseField
  cases htag : extractFromTag field.Tag with
  | none => rfl
  | some pr =>
    obtain ⟨n, o⟩ := pr
    have ho : ¬ o = "inline" := by
      simpa [isInlined, fieldOption_of_tag htag] using hown
    simp only [if_neg ho]
    cases hcl : classifyFieldType P field.Type_ st.externalTypes with
    | none => rfl
    | some res =>
      obtain ⟨property, externalTypes⟩ := res
      simp only []
      cases hset : setProperty (if o ≠ "omitempty" then
          { st.definition with Required := st.definition.Required ++ [n] }
        else st.definition) n { property with Description := field.Doc } with
      | none => rfl
      | some definition => rfl

/-- The loop splits by field kind: the inline list grows by the inline references
of the inlined fields, in order, and the object Definition and the external
index are those the loop builds over the own fields alone. -/
theorem parseFields_split (P : Primitives) (fields : List Field) :
    ∀ st st₂ : LoopState, parseFields P fields st = some st₂ →
      st₂.inlineDefinitions =
          st.inlineDefinitions ++ (fields.filter isInlined).map inlineReference ∧
        ∀ il : List Definition,
          parseFields P (fields.filter isOwn) ⟨st.definition, il, st.externalTypes⟩ =
            some ⟨st₂.definition, il, st₂.externalTypes⟩ := by
  induction fields with
  | nil =>
    intro st st₂ h
    simp only [parseFields, Option.some.injEq] at h
    subst h
    exact ⟨by simp, fun il => rfl⟩
  | cons field rest ih =>
    intro st st₂ h
    obtain ⟨st₁, h₁, h₂⟩ := parseFields_cons P field rest st st₂ h
    obtain ⟨hinl, hobj⟩ := ih st₁ st₂ h₂
    cases hin : isInlined field with
    | true =>
      have hst := parseField_inlined P st st₁ field hin h₁
      have hown : isOwn field = false := by simp [isOwn, hin]
      refine ⟨?_, fun il => ?_⟩
      · rw [hinl, hst]
        simp [List.filter_cons, hin]
      · rw [List.filter_cons, hown]
        have := hobj il
        rw [hst] at this
        simpa using this
    | false =>
      have hown : isOwn field = true := by simp [isOwn, hin]
      obtain ⟨property, externalTypes, m, _, _, hst⟩ := parseField_own P st st₁ field hin h₁
      refine ⟨?_, fun il => ?_⟩
      · rw [hinl, hst]
        simp [List.filter_cons, hin]
      · rw [List.filter_cons, hown]
        simp only [if_true]
        unfold parseFields
        rw [parseField_own_inline P st field il hin, h₁]
        exact hobj il

/-- The loop appends to `required` the names of the own fields that are not tagged
`omitempty`, in declaration order. -/
theorem parseFields_required (P : Primitives) (fields : List Field) :
    ∀ st st₂ : LoopState, parseFields P fields st = some st₂ →
      st₂.definition.Required = st.definition.Required ++ requiredNames fields := by
  induction fields with
  | nil =>
    intro st st₂ h
    simp only [parseFields, Option.some.injEq] at h
    subst h
    simp [requiredNames]
  | cons field rest ih =>
    intro st st₂ h
    obtain ⟨st₁, h₁, h₂⟩ := parseFields_cons P field rest st st₂ h
    rw [ih st₁ st₂ h₂]
    cases hin : isInlined field with
    | true =>
      rw [parseField_inlined P st st₁ field hin h₁]
      simp [requiredNames, List.filter_cons, isOwn, hin]
    | false =>
      obtain ⟨property, externalTypes, m, _, _, hst⟩ := parseField_own P st st₁ field hin h₁
      rw [hst]
      by_cases hom : fieldOption field = "omitempty"
      · simp [requiredNames, List.filter_cons, isOwn, hin, hom]
      · simp [requiredNames, List.filter_cons, isOwn, hin, hom]

/-- The loop leaves the entry of a key as it is when no own field it runs over
takes that key for serialized name. -/
theorem parseFields_propertyOf (P : Primitives) (key : String) (fields : List Field) :
    ∀ st st₂ : LoopState, parseFields P fields st = some st₂ →
      (∀ g ∈ fields, isInlined g = false → fieldName g ≠ key) →
      propertyOf st₂.definition key = propertyOf st.definition key := by
  induction fields with
  | nil =>
    intro st st₂ h _
    simp only [parseFields, Option.some.injEq] at h
    subst h
    rfl
  | cons field rest ih =>
    intro st st₂ h hkey
    obtain ⟨st₁, h₁, h₂⟩ := parseFields_cons P field rest st st₂ h
    rw [ih st₁ st₂ h₂ fun g hg => hkey g (List.mem_cons_of_mem _ hg)]
    cases hin : isInlined field with
    | true =>
      rw [parseField_inlined P st st₁ field hin h₁]
    | false =>
      obtain ⟨property, externalTypes, m, _, hm, hst⟩ := parseField_own P st st₁ field hin h₁
      have hne : ¬ key = fieldName field :=
        fun e => hkey field (List.mem_cons_self _ _) hin e.symm
      rw [hst]
      simp [propertyOf, hm, mapGet_mapSet, hne]

/-- The properties of the object Definition are non-empty after the loop as soon as
they were before it or the loop ran over an own field. -/
theorem parseFields_mapLen (P : Primitives) (fields : List Field) :
    ∀ st st₂ : LoopState, parseFields P fields st = some st₂ →
      mapLen st.definition.Properties ≠ 0 ∨ fields.filter isOwn ≠ [] →
      mapLen st₂.definition.Properties ≠ 0 := by
  induction fields with
  | nil =>
    intro st st₂ h hor
    simp only [parseFields, Option.some.injEq] at h
    subst h
    simpa using hor
  | cons field rest ih =>
    intro st st₂ h hor
    obtain ⟨st₁, h₁, h₂⟩ := parseFields_cons P field rest st st₂ h
    cases hin : isInlined field with
    | true =>
      have hst := parseField_inlined P st st₁ field hin h₁
      apply ih st₁ st₂ h₂
      rw [hst]
      simpa [List.filter_cons, isOwn, hin] using hor
    | false =>
      obtain ⟨property, externalTypes, m, _, _, hst⟩ := parseField_own P st st₁ field hin h₁
      apply ih st₁ st₂ h₂
      left
      rw [hst]
      simp [mapLen, mapSet_ne_nil]

/-- What `parseStructType` returns, from the state its loop ends in. -/
theorem parseStructType_eq (P : Primitives) (structType : List Field)
    (typeName typeDescription : String) (d : Definition) (ext : List (String × List String))
    (h : parseStructType P structType typeName typeDescription = some (d, ext)) :
    ∃ st : LoopState,
      parseFields P structType (initialState typeDescription) = some st ∧
      ext = st.externalTypes ∧
      d = (if st.inlineDefinitions.length = 0 then st.definition
        else if mapLen st.definition.Properties ≠ 0 then
          { Definition.new with AllOf := st.inlineDefinitions ++ [st.definition] }
        else { Definition.new with AllOf := st.inlineDefinitions }) := by
  unfold parseStructType at h
  cases hst : parseFields P structType (initialState typeDescription) with
  | none => simp [hst] at h
  | some st =>
    rw [hst] at h
    refine ⟨st, rfl, ?_⟩
    by_cases hil : st.inlineDefinitions.length = 0
    · simp only [hil, if_true, Option.some.injEq, Prod.mk.injEq] at h
      simp [hil, h.1, h.2]
    · by_cases hm : mapLen st.definition.Properties = 0
      · simp only [hil, hm, if_false, ne_eq, not_true_eq_false, Option.some.injEq,
          Prod.mk.injEq] at h
        simp [hil, hm, ← h.1, ← h.2]
      · simp only [hil, hm, if_false, ne_eq, not_false_eq_true, if_true, Option.some.injEq,
          Prod.mk.injEq] at h
        simp [hil, hm, ← h.1, ← h.2]

/-- The loop writes `required` and `properties` of the object Definition and no
other attribute of it. -/
theorem parseFields_frame (P : Primitives) (fields : List Field) :
    ∀ st st₂ : LoopState, parseFields P fields st = some st₂ →
      st₂.definition.AllOf = st.definition.AllOf ∧
        st₂.definition.Description = st.definition.Description ∧
        st₂.definition.Typ = st.definition.Typ ∧
        st₂.definition.Ref = st.definition.Ref ∧
        st₂.definition.Items = st.definition.Items ∧
        st₂.definition.AdditionalProperties = st.definition.AdditionalProperties ∧
        (st.definition.Properties.isSome = true → st₂.definition.Properties.isSome = true) := by
  induction fields with
  | nil =>
    intro st st₂ h
    simp only [parseFields, Option.some.injEq] at h
    subst h
    simp
  | cons field rest ih =>
    intro st st₂ h
    obtain ⟨st₁, h₁, h₂⟩ := parseFields_cons P field rest st st₂ h
    obtain ⟨a₁, a₂, a₃, a₄, a₅, a₆, a₇⟩ := ih st₁ st₂ h₂
    rw [a₁, a₂, a₃, a₄, a₅, a₆]
    cases hin : isInlined field with
    | true =>
      have hst := parseField_inlined P st st₁ field hin h₁
      rw [hst] at a₇ ⊢
      exact ⟨rfl, rfl, rfl, rfl, rfl, rfl, a₇⟩
    | false =>
      obtain ⟨property, externalTypes, m, _, _, hst⟩ := parseField_own P st st₁ field hin h₁
      rw [hst] at a₇ ⊢
      exact ⟨rfl, rfl, rfl, rfl, rfl, rfl, fun _ => a₇ rfl⟩

theorem requiredNames_of_no_own (fields : List Field) (h : fields.filter isOwn = []) :
    requiredNames fields = [] := by
  unfold requiredNames
  rw [List.map_eq_nil_iff, List.filter_eq_nil_iff]
  intro field hf
  have := (List.filter_eq_nil_iff.mp h) field hf
  simp [this]

/-- With an own field in the struct, the object Definition within what
`parseStructType` returns is the one its loop ends with. -/
theorem objectDefinition_of_own (P : Primitives) (structType : List Field)
    (typeName typeDescription : String) (d : Definition) (ext : List (String × List String))
    (h : parseStructType P structType typeName typeDescription = some (d, ext))
    (hown : structType.filter isOwn ≠ []) :
    ∃ st : LoopState,
      parseFields P structType (initialState typeDescription) = some st ∧
      ext = st.externalTypes ∧ objectDefinition d = st.definition := by
  obtain ⟨st, hst, hext, hd⟩ := parseStructType_eq P structType typeName typeDescription d ext h
  refine ⟨st, hst, hext, ?_⟩
  have hfr := parseFields_frame P structType _ st hst
  have hm := parseFields_mapLen P structType _ st hst (Or.inr hown)
  by_cases hil : st.inlineDefinitions.length = 0
  · rw [if_pos hil] at hd
    have hall : st.definition.AllOf = [] := by rw [hfr.1]; rfl
    simp [objectDefinition, hall, hd]
  · rw [if_neg hil, if_pos hm] at hd
    simp [objectDefinition, hd]

/-- The entry that the returned object Definition holds for an own field, when no
later own field takes the same serialized name: the fragment of the type switch
on the type of the field, with the doc comment of the field for description. -/
theorem parseStructType_property (P : Primitives) (pre post : List Field) (field : Field)
    (typeName typeDescription : String) (d : Definition) (ext : List (String × List String))
    (hown : isInlined field = false)
    (hlast : ∀ g ∈ post, isInlined g = false → fieldName g ≠ fieldName field)
    (h : parseStructType P (pre ++ field :: post) typeName typeDescription = some (d, ext)) :
    ∃ (property : Definition) (ext₀ ext₁ : List (String × List String)),
      classifyFieldType P field.Type_ ext₀ = some (property, ext₁) ∧
      propertyOf (objectDefinition d) (fieldName field) =
        some { property with Description := field.Doc } := by
  have hne : (pre ++ field :: post).filter isOwn ≠ [] := by
    intro hnil
    have := (List.filter_eq_nil_iff.mp hnil) field (by simp)
    simp [isOwn, hown] at this
  obtain ⟨st, hst, _, hobj⟩ :=
    objectDefinition_of_own P _ typeName typeDescription d ext h hne
  obtain ⟨st₁, _, h₁⟩ := parseFields_append P pre (field :: post) _ st hst
  obtain ⟨st₂, h₂, h₃⟩ := parseFields_cons P field post st₁ st h₁
  obtain ⟨property, ext₁, m, hcl, hm, hst₂⟩ := parseField_own P st₁ st₂ field hown h₂
  refine ⟨property, st₁.externalTypes, ext₁, hcl, ?_⟩
  rw [hobj, parseFields_propertyOf P (fieldName field) post st₂ st h₃ hlast, hst₂]
  simp [propertyOf, mapGet_mapSet]

/-! ## The struct schema builder -/

/-- C2: the `required` list of the object Definition that `parseStructType` builds
(the returned Definition when no field is inlined, otherwise the trailing member
of `allOf`) is the sequence of the serialized names of the fields whose tag
option is neither `inline` nor `omitempty`, in declaration order: one entry for
each such field and none for any other. -/
theorem parseStructType_required (P : Primitives) (structType : List Field)
    (typeName typeDescription : String) (d : Definition) (ext : List (String × List String))
    (h : parseStructType P structType typeName typeDescription = some (d, ext)) :
    (objectDefinition d).Required = requiredNames structType := by
  obtain ⟨st, hst, _, hd⟩ := parseStructType_eq P structType typeName typeDescription d ext h
  have hreq := parseFields_required P structType _ st hst
  have hfr := parseFields_frame P structType _ st hst
  obtain ⟨hinl, _⟩ := parseFields_split P structType _ st hst
  simp only [initialState, List.nil_append] at hreq hfr hinl
  by_cases hil : st.inlineDefinitions.length = 0
  · rw [if_pos hil] at hd
    have hall : st.definition.AllOf = [] := by rw [hfr.1]; rfl
    simp [objectDefinition, hall, hd, hreq]
  · rw [if_neg hil] at hd
    by_cases hm : mapLen st.definition.Properties = 0
    · have hown : structType.filter isOwn = [] := by
        by_contra hne
        exact parseFields_mapLen P structType _ st hst (Or.inr hne) hm
      rw [requiredNames_of_no_own structType hown]
      have hall : d.AllOf = (structType.filter isInlined).map inlineReference := by
        rw [hd]
        simp [hm, hinl]
      unfold objectDefinition
      rw [hall]
      cases hlast : ((structType.filter isInlined).map inlineReference).getLast? with
      | none =>
        exfalso
        apply hil
        rw [hinl]
        simpa using hlast
      | some member =>
        have hmem := List.mem_of_getLast?_eq_some hlast
        obtain ⟨field, _, hfield⟩ := List.mem_map.mp hmem
        simp only []
        rw [← hfield]
        rfl
    · have hall : d.AllOf = st.inlineDefinitions ++ [st.definition] := by
        rw [hd]
        simp [hm]
      simp [objectDefinition, hall, hreq]

/-- C2 on the struct `Widget`: of its three own fields, `name` and `owner` are
required and `size`, tagged `omitempty`, is not. -/
theorem parseStructType_required_witness :
    ∃ (d : Definition) (ext : List (String × List String)),
      parseStructType goPrimitives widgetFields "Widget" "A widget.\n" = some (d, ext) ∧
      (objectDefinition d).Required = ["name", "owner"] :=
  ⟨_, _, rfl, parseStructType_required goPrimitives widgetFields "Widget" "A widget.\n" _ _ rfl⟩

/-- C5: with no inlined field `parseStructType` returns the object Definition
itself (the description of the type, a properties map, an empty `allOf`, no
other attribute but `required`); with at least one inlined field it returns a
Definition whose only attribute is `allOf`, equal to the inline references of
the inlined fields in declaration order followed, exactly when there is an own
field, by the object Definition that `parseStructType` returns for the struct
with its inlined fields removed; so `allOf` has one member for each inlined
field, and one more exactly when there is an own field. -/
theorem parseStructType_allOf (P : Primitives) (structType : List Field)
    (typeName typeDescription : String) (d : Definition) (ext : List (String × List String))
    (h : parseStructType P structType typeName typeDescription = some (d, ext)) :
    (structType.filter isInlined = [] →
      d.AllOf = [] ∧ d.Description = typeDescription ∧ d.Properties.isSome = true ∧
        d.Typ = "" ∧ d.Ref = "" ∧ d.Items = none ∧ d.AdditionalProperties = none ∧
        parseStructType P (structType.filter isOwn) typeName typeDescription = some (d, ext)) ∧
    (structType.filter isInlined ≠ [] →
      ∃ object : Definition,
        parseStructType P (structType.filter isOwn) typeName typeDescription =
          some (object, ext) ∧
        d = { Definition.new with
          AllOf := (structType.filter isInlined).map inlineReference ++
            (if (structType.filter isOwn).length = 0 then [] else [object]) } ∧
        d.AllOf.length = (structType.filter isInlined).length +
          (if (structType.filter isOwn).length = 0 then 0 else 1)) := by
  obtain ⟨st, hst, hext, hd⟩ := parseStructType_eq P structType typeName typeDescription d ext h
  have hfr := parseFields_frame P structType _ st hst
  obtain ⟨hinl, hobj⟩ := parseFields_split P structType _ st hst
  simp only [initialState, List.nil_append] at hfr hinl
  have hown : parseStructType P (structType.filter isOwn) typeName typeDescription =
      some (st.definition, ext) := by
    unfold parseStructType
    have := hobj []
    simp only [initialState] at this ⊢
    rw [this, hext]
    simp
  constructor
  · intro hk
    have hil : st.inlineDefinitions.length = 0 := by simp [hinl, hk]
    rw [if_pos hil] at hd
    subst hd
    exact ⟨hfr.1, hfr.2.1, hfr.2.2.2.2.2.2 rfl, hfr.2.2.1, hfr.2.2.2.1, hfr.2.2.2.2.1,
      hfr.2.2.2.2.2.1, hown⟩
  · intro hk
    have hil : ¬ st.inlineDefinitions.length = 0 := by simpa [hinl] using hk
    rw [if_neg hil] at hd
    refine ⟨st.definition, hown, ?_⟩
    by_cases hm : mapLen st.definition.Properties = 0
    · have hno : structType.filter isOwn = [] := by
        by_contra hne
        exact parseFields_mapLen P structType _ st hst (Or.inr hne) hm
      subst hd
      simp [hm, hno, hinl]
    · have hsome : ¬ (structType.filter isOwn).length = 0 := by
        intro hlen
        apply hm
        have hnil : structType.filter isOwn = [] := List.length_eq_zero.mp hlen
        have := hobj []
        rw [hnil] at this
        simp only [parseFields, initialState, Option.some.injEq, LoopState.mk.injEq] at this
        rw [← this.1]
        rfl
      subst hd
      simp [hm, hsome, hinl]

/-- C5 on a struct with two inlined types and one own field, whose `allOf` has
three members, and on a struct with two inlined types only, whose `allOf` is
the two inline references. -/
theorem parseStructType_allOf_witness :
    (∃ (d : Definition) (ext : List (String × List String)),
      parseStructType goPrimitives embeddingFields "Widget" "" = some (d, ext) ∧
      d.AllOf.length = 3) ∧
    (∃ (d : Definition) (ext : List (String × List String)),
      parseStructType goPrimitives allInlineFields "Widget" "" = some (d, ext) ∧
      d = { Definition.new with
        AllOf := [{ Definition.new with Ref := "#/definitions/Base" },
          { Definition.new with Ref := "#/definitions/Meta" }] }) := by
  constructor
  · refine ⟨_, _, rfl, ?_⟩
    obtain ⟨_, _, _, hlen⟩ :=
      (parseStructType_allOf goPrimitives embeddingFields "Widget" "" _ _ rfl).2
        (fun hnil => absurd (congrArg List.length hnil) (by decide))
    exact hlen
  · refine ⟨_, _, rfl, ?_⟩
    obtain ⟨_, _, hd, _⟩ :=
      (parseStructType_allOf goPrimitives allInlineFields "Widget" "" _ _ rfl).2
        (fun hnil => absurd (congrArg List.length hnil) (by decide))
    exact hd

/-- The guard of `extractFromTag` (line 49): when the tag node of some field holds
the empty string for `Value`, `parseStructType` aborts and returns no
Definition, whatever the other fields are.  No source text gives such a node:
the `Value` of a literal comes with its delimiters. -/
theorem parseStructType_empty_tag (P : Primitives) (structType : List Field)
    (typeName typeDescription : String)
    (h : ∃ field ∈ structType, field.Tag = some ⟨""⟩) :
    parseStructType P structType typeName typeDescription = none ∧
      extractFromTag (some ⟨""⟩) = none := by
  have hloop : ∀ (fields : List Field) (st : LoopState),
      (∃ field ∈ fields, field.Tag = some ⟨""⟩) → parseFields P fields st = none := by
    intro fields
    induction fields with
    | nil =>
      intro st hex
      obtain ⟨field, hmem, _⟩ := hex
      cases hmem
    | cons g rest ih =>
      intro st hex
      unfold parseFields
      cases hg : parseField P st g with
      | none => rfl
      | some st₁ =>
        simp only []
        apply ih
        obtain ⟨field, hmem, htag⟩ := hex
        rcases List.mem_cons.mp hmem with rfl | hrest
        · exfalso
          simp [parseField, htag, extractFromTag] at hg
        · exact ⟨field, hrest, htag⟩
  refine ⟨?_, rfl⟩
  unfold parseStructType
  rw [hloop structType _ h]

/-- The guard of `extractFromTag` on a struct whose second field has a tag node
built by hand, with the empty string for `Value`. -/
theorem parseStructType_empty_tag_witness :
    parseStructType goPrimitives emptyTagFields "Widget" "" = none :=
  (parseStructType_empty_tag goPrimitives emptyTagFields "Widget" ""
    ⟨⟨"", .Ident "int", some ⟨""⟩⟩, by simp [emptyTagFields], rfl⟩).1

/-- C8, the code at an empty tag literal: the node of the literal holds its two
delimiters (backticks, or double quotes), so the guard of line 49 does not
fire; the delimiters blanked and trimmed leave nothing to scan, and
`extractFromTag` returns the empty name and the empty option.  For a struct
whose second field has the empty literal for tag, `parseStructType` does not
abort: it returns a Definition in which the empty name is required and is the
key of the property of that field. -/
theorem parseStructType_empty_literal :
    extractFromTag (some ⟨"\x60\x60"⟩) = some ("", "") ∧
    extractFromTag (some ⟨"\"\""⟩) = some ("", "") ∧
    parseStructType goPrimitives emptyLiteralFields "Widget" "" =
      some ({ Definition.new with
        Required := ["name", "", "done"],
        Properties := some [("name", { Definition.new with Typ := "string" }),
          ("", { Definition.new with Typ := "integer" }),
          ("done", { Definition.new with Typ := "boolean" })] }, []) :=
  ⟨rfl, rfl, rfl⟩

/-- C3: for an own field whose type is a plain identifier `T`, the property
fragment that `parseStructType` stores under the serialized name of the field
(and that the returned object Definition holds there, no later own field taking
the same name) has type `jsonifyType T` and no ref when `isSimpleType T` holds,
and otherwise ref `#/definitions/T` and no type; its description is the doc
comment of the field and it has no other attribute. -/
theorem parseStructType_ident_property (P : Primitives) (pre post : List Field)
    (field : Field) (T typeName typeDescription : String) (d : Definition)
    (ext : List (String × List String))
    (hT : field.Type_ = .Ident T) (hown : isInlined field = false)
    (hlast : ∀ g ∈ post, isInlined g = false → fieldName g ≠ fieldName field)
    (h : parseStructType P (pre ++ field :: post) typeName typeDescription = some (d, ext)) :
    ∃ fragment : Definition,
      propertyOf (objectDefinition d) (fieldName field) = some fragment ∧
      fragment.Typ = (if P.isSimpleType T then P.jsonifyType T else "") ∧
      fragment.Ref = (if P.isSimpleType T then "" else "#/definitions/" ++ T) ∧
      fragment.Description = field.Doc ∧ fragment.Items = none ∧
      fragment.Properties = none ∧ fragment.AdditionalProperties = none ∧
      fragment.AllOf = [] ∧ fragment.Required = [] := by
  obtain ⟨property, ext₀, ext₁, hcl, hprop⟩ :=
    parseStructType_property P pre post field typeName typeDescription d ext hown hlast h
  refine ⟨_, hprop, ?_⟩
  rw [hT] at hcl
  unfold classifyFieldType at hcl
  by_cases hs : P.isSimpleType T = true
  · simp only [hs, if_true, Option.some.injEq, Prod.mk.injEq] at hcl
    rw [← hcl.1]
    simp [hs, Definition.new]
  · have hs₂ : P.isSimpleType T = false := by simpa using hs
    simp only [hs₂, Bool.false_eq_true, if_false, Option.some.injEq, Prod.mk.injEq] at hcl
    rw [← hcl.1]
    simp [hs₂, Definition.new, getDefLink, defPrefix]

/-- C3 on the struct `Widget`: the field `Name string` gives a fragment of type
`string` without ref, described by the doc comment of the field. -/
theorem parseStructType_ident_property_witness :
    ∃ (d : Definition) (ext : List (String × List String)) (fragment : Definition),
      parseStructType goPrimitives widgetFields "Widget" "" = some (d, ext) ∧
      propertyOf (objectDefinition d) "name" = some fragment ∧
      fragment.Typ = "string" ∧ fragment.Ref = "" ∧
      fragment.Description = "Name of the widget.\n" := by
  obtain ⟨fragment, h₁, h₂, h₃, h₄, _⟩ :=
    parseStructType_ident_property goPrimitives
      [⟨"", .Ident "Base", jsonTag ",inline"⟩, ⟨"", .StarExpr (.Ident "Meta"), jsonTag ",inline"⟩]
      [⟨"", .Ident "int", jsonTag "size,omitempty"⟩,
        ⟨"", .StarExpr (.Ident "Owner"), jsonTag "owner"⟩]
      ⟨"Name of the widget.\n", .Ident "string", jsonTag "name"⟩ "string" "Widget" "" _ _
      rfl (by decide)
      (by
        intro g hg _
        simp only [List.mem_cons, List.mem_singleton, List.not_mem_nil, or_false] at hg
        rcases hg with rfl | rfl <;> decide)
      rfl
  exact ⟨_, _, fragment, rfl, h₁, h₂, h₃, h₄⟩

/-- C9, the code at a map field: for every table of primitives the type switch
stores the Go name of a primitive value type as it is in
`additionalProperties.type`, without `jsonifyType`; so the field
`Sizes map[string]int` gets `additionalProperties.type` equal to `int`, where
`jsonifyType` gives `integer`. -/
theorem parseStructType_map_value :
    (∀ (P : Primitives) (Key : Expr) (T : String) (ext : List (String × List String)),
      classifyFieldType P (.MapType Key (.Ident T)) ext =
        some ({ Definition.new with
          AdditionalProperties := some
            (if P.isSimpleType T then { Definition.new with Typ := T }
              else { Definition.new with Ref := "#/definitions/" ++ T }),
          Typ := "object" }, ext)) ∧
    parseStructType goPrimitives [mapField] "Widget" "" =
      some ({ Definition.new with
        Required := ["sizes"],
        Properties := some [("sizes",
          { Definition.new with
            AdditionalProperties := some { Definition.new with Typ := "int" },
            Typ := "object" })] }, []) ∧
    goPrimitives.isSimpleType "int" = true ∧
    goPrimitives.jsonifyType "int" = "integer" := by
  refine ⟨?_, rfl, rfl, rfl⟩
  intro P Key T ext
  rfl

/-- C10, the code at a pointer to a qualified identifier: for every table of
primitives the type switch returns the empty fragment and does not abort; so
for the field `Spec *pkg.Spec` the builder `parseStructType` returns a
Definition whose property `spec` has neither type nor ref. -/
theorem parseStructType_qualified_pointer :
    (∀ (P : Primitives) (X : Expr) (Sel : String) (ext : List (String × List String)),
      classifyFieldType P (.StarExpr (.SelectorExpr X Sel)) ext =
        some (Definition.new, ext)) ∧
    parseStructType goPrimitives [qualifiedPointerField] "Widget" "" =
      some ({ Definition.new with
        Required := ["spec"],
        Properties := some [("spec", Definition.new)] }, []) ∧
    Definition.new.Typ = "" ∧ Definition.new.Ref = "" := by
  refine ⟨?_, rfl, rfl, rfl⟩
  intro P X Sel ext
  simp [classifyFieldType]

/-! ## The definition merger -/

theorem Store.write_write (σ : Store) (p : Nat) (d₁ d₂ : Definition) :
    (σ.write p d₁).write p d₂ = σ.write p d₂ := by
  funext q
  by_cases h : q = p <;> simp [Store.write, h]

theorem Store.write_same (σ : Store) (p : Nat) (d : Definition) :
    (σ.write p d) p = some d := by
  simp [Store.write]

theorem Store.write_other (σ : Store) (p q : Nat) (d : Definition) (h : q ≠ p) :
    (σ.write p d) q = σ q := by
  simp [Store.write, h]

/-- The loop over the entries of the source writes them one after the other into a
target map that is not nil, and touches nothing else of the target. -/
theorem mergeProperties_eq (entries : List (String × Definition)) :
    ∀ (lhs : Definition) (m : List (String × Definition)), lhs.Properties = some m →
      mergeProperties entries lhs =
        some { lhs with
          Properties := some (entries.foldl (fun acc e => mapSet acc e.1 e.2) m) } := by
  induction entries with
  | nil =>
    intro lhs m hm
    cases lhs
    simp_all [mergeProperties]
  | cons e rest ih =>
    intro lhs m hm
    obtain ⟨key, value⟩ := e
    simp only [mergeProperties, setProperty, hm, List.foldl_cons]
    rw [ih _ (mapSet m key value) rfl]

/-- Reading the map that the writes of distinct keys leave: the entry written for
the key if there is one, the old entry otherwise. -/
theorem mapGet_foldl_mapSet (entries : List (String × Definition)) :
    ∀ (m : List (String × Definition)) (key : String), (mapKeys entries).Nodup →
      mapGet (entries.foldl (fun acc e => mapSet acc e.1 e.2) m) key =
        match mapGet entries key with
        | some entry => some entry
        | none => mapGet m key := by
  induction entries with
  | nil =>
    intro m key _
    simp [mapGet]
  | cons e rest ih =>
    intro m key hnd
    obtain ⟨k₀, v₀⟩ := e
    have hnd₂ : k₀ ∉ mapKeys rest ∧ (mapKeys rest).Nodup := by
      simpa [mapKeys] using hnd
    rw [List.foldl_cons, ih _ key hnd₂.2]
    by_cases hk : k₀ = key
    · subst hk
      have hnone : mapGet rest k₀ = none := by
        have hnot := hnd₂.1
        clear ih hnd hnd₂
        induction rest with
        | nil => rfl
        | cons e₂ rest₂ ih₂ =>
          obtain ⟨k₂, v₂⟩ := e₂
          have h₂ : ¬ k₂ = k₀ := by
            intro e
            apply hnot
            simp [mapKeys, e]
          have h₃ : k₀ ∉ mapKeys rest₂ := by
            intro hmem
            apply hnot
            simp only [mapKeys, List.map_cons, List.mem_cons]
            exact Or.inr hmem
          simp [mapGet, h₂, ih₂ h₃]
      simp [hnone, mapGet, mapGet_mapSet]
    · have hk₂ : ¬ key = k₀ := fun e => hk e.symm
      simp [mapGet, hk, mapGet_mapSet, hk₂]

/-- The store after `mergeDefinitions`: only the cell of the target is written, and
in it only the properties, which take the entries of the source one after the
other, and the description, which takes that of the source when it was empty. -/
theorem mergeDefinitions_eq (σ : Store) (lhsDef rhsDef : Nat) (target source : Definition)
    (hl : σ lhsDef = some target) (hr : σ rhsDef = some source) :
    mergeDefinitions σ lhsDef rhsDef =
      some (σ.write lhsDef
        { target with
          Properties := some ((source.Properties.getD []).foldl
            (fun acc e => mapSet acc e.1 e.2) (target.Properties.getD [])),
          Description :=
            if target.Description.length = 0 then source.Description
            else target.Description }) := by
  have h₁ : ∃ lhs₁ : Definition,
      (match target.Properties with
        | none => { target with Properties := some [] }
        | some _ => target) = lhs₁ ∧
      lhs₁ = { target with Properties := some (target.Properties.getD []) } := by
    refine ⟨_, rfl, ?_⟩
    cases hp : target.Properties with
    | none => simp
    | some m =>
      cases target
      simp_all
  obtain ⟨lhs₁, hlhs₁, hform⟩ := h₁
  have hrhs : ∃ rhs : Definition, (σ.write lhsDef lhs₁) rhsDef = some rhs ∧
      rhs.Properties.getD [] = source.Properties.getD [] ∧
      rhs.Description = source.Description := by
    by_cases hal : rhsDef = lhsDef
    · have hts : target = source := by
        rw [hal, hl] at hr
        exact Option.some.inj hr
      refine ⟨lhs₁, by rw [hal]; exact Store.write_same _ _ _, ?_, ?_⟩
      · rw [hform, ← hts]
        cases target.Properties <;> rfl
      · rw [hform, ← hts]
    · exact ⟨source, by rw [Store.write_other _ _ _ _ hal]; exact hr, rfl, rfl⟩
  obtain ⟨rhs, hrhs₁, hrhs₂, hrhs₃⟩ := hrhs
  have hmerge := mergeProperties_eq (rhs.Properties.getD []) lhs₁
    (target.Properties.getD []) (by rw [hform])
  have hrhs₄ : ∃ rhs₂ : Definition,
      ((σ.write lhsDef lhs₁).write lhsDef
        { lhs₁ with
          Properties := some ((rhs.Properties.getD []).foldl
            (fun acc e => mapSet acc e.1 e.2) (target.Properties.getD [])) }) rhsDef =
        some rhs₂ ∧
      rhs₂.Description = source.Description := by
    by_cases hal : rhsDef = lhsDef
    · have hts : target = source := by
        rw [hal, hl] at hr
        exact Option.some.inj hr
      refine ⟨_, by rw [hal]; exact Store.write_same _ _ _, ?_⟩
      rw [hform, ← hts]
    · exact ⟨source, by
        rw [Store.write_other _ _ _ _ hal, Store.write_other _ _ _ _ hal]; exact hr, rfl⟩
  obtain ⟨rhs₂, hrhs₅, hrhs₆⟩ := hrhs₄
  unfold mergeDefinitions
  simp only [hl, hlhs₁, hrhs₁, hmerge, hrhs₅, hrhs₆, Store.write_write]
  rw [hrhs₂, hform]
  by_cases hlen : target.Description.length = 0
  · simp [hlen]
  · simp only [hlen, if_false]

/-- C6: after `mergeDefinitions(target, source)` the properties of the target map
every key of the source to the entry of the source and every other key of the
old target to its old entry, nothing else, and the description of the target is
its old description when that was non-empty and the description of the source
otherwise; the source map holds each key once. -/
theorem mergeDefinitions_properties (σ : Store) (lhsDef rhsDef : Nat)
    (target source : Definition)
    (hl : σ lhsDef = some target) (hr : σ rhsDef = some source)
    (hkeys : (mapKeys (source.Properties.getD [])).Nodup) :
    ∃ (σ₂ : Store) (merged : Definition),
      mergeDefinitions σ lhsDef rhsDef = some σ₂ ∧ σ₂ lhsDef = some merged ∧
      (∀ key : String,
        propertyOf merged key =
          match propertyOf source key with
          | some entry => some entry
          | none => propertyOf target key) ∧
      merged.Description =
        (if target.Description = "" then source.Description else target.Description) := by
  refine ⟨_, _, mergeDefinitions_eq σ lhsDef rhsDef target source hl hr,
    Store.write_same _ _ _, ?_, ?_⟩
  · intro key
    have hs : propertyOf source key = mapGet (source.Properties.getD []) key := by
      unfold propertyOf
      cases source.Properties <;> rfl
    have ht : propertyOf target key = mapGet (target.Properties.getD []) key := by
      unfold propertyOf
      cases target.Properties <;> rfl
    rw [hs, ht, ← mapGet_foldl_mapSet _ _ key hkeys]
    rfl
  · have hlen : target.Description.length = 0 ↔ target.Description = "" := by
      constructor
      · intro h0
        cases hd : target.Description with
        | mk data =>
          rw [hd] at h0
          have : data = [] := List.length_eq_zero.mp h0
          rw [this]
      · intro h0
        rw [h0]
        rfl
    by_cases hdesc : target.Description = ""
    · simp [hdesc]
    · have := mt hlen.mp hdesc
      simp [hdesc, this]

/-- C6 on the sample store: the merged target holds `a` of the target, `b` and `c`
of the source, and takes the description of the source. -/
theorem mergeDefinitions_properties_witness :
    ∃ (σ₂ : Store) (merged : Definition),
      mergeDefinitions sampleStore 0 1 = some σ₂ ∧ σ₂ 0 = some merged ∧
      propertyOf merged "a" = some { Definition.new with Typ := "string" } ∧
      propertyOf merged "b" = some { Definition.new with Ref := "#/definitions/B" } ∧
      propertyOf merged "c" = some { Definition.new with Typ := "boolean" } ∧
      propertyOf merged "d" = none ∧
      merged.Description = "The source." := by
  obtain ⟨σ₂, merged, h₁, h₂, h₃, h₄⟩ :=
    mergeDefinitions_properties sampleStore 0 1 sampleTarget sampleSource rfl rfl (by decide)
  exact ⟨σ₂, merged, h₁, h₂, h₃ "a", h₃ "b", h₃ "c", h₃ "d", h₄⟩

/-- C7: `mergeDefinitions` leaves `required`, `allOf`, `ref`, `items`, `type` and
`additionalProperties` of the target as they were, and writes no cell but that
of the target: the source, held in another cell, keeps every attribute. -/
theorem mergeDefinitions_frame (σ : Store) (lhsDef rhsDef : Nat)
    (target source : Definition)
    (hl : σ lhsDef = some target) (hr : σ rhsDef = some source) :
    ∃ (σ₂ : Store) (merged : Definition),
      mergeDefinitions σ lhsDef rhsDef = some σ₂ ∧ σ₂ lhsDef = some merged ∧
      merged.Required = target.Required ∧ merged.AllOf = target.AllOf ∧
      merged.Ref = target.Ref ∧ merged.Items = target.Items ∧
      merged.Typ = target.Typ ∧
      merged.AdditionalProperties = target.AdditionalProperties ∧
      (∀ p : Nat, p ≠ lhsDef → σ₂ p = σ p) ∧
      (rhsDef ≠ lhsDef → σ₂ rhsDef = some source) :=
  ⟨_, _, mergeDefinitions_eq σ lhsDef rhsDef target source hl hr, Store.write_same _ _ _,
    rfl, rfl, rfl, rfl, rfl, rfl, fun p hp => Store.write_other _ _ _ _ hp,
    fun hne => by rw [Store.write_other _ _ _ _ hne]; exact hr⟩

/-- C7 on the sample store: the target in cell 0 keeps its `required` and the
source in cell 1 is as it was. -/
theorem mergeDefinitions_frame_witness :
    ∃ (σ₂ : Store) (merged : Definition),
      mergeDefinitions sampleStore 0 1 = some σ₂ ∧ σ₂ 0 = some merged ∧
      merged.Required = ["a"] ∧ σ₂ 1 = some sampleSource := by
  obtain ⟨σ₂, merged, h₁, h₂, h₃, _, _, _, _, _, _, h₄⟩ :=
    mergeDefinitions_frame sampleStore 0 1 sampleTarget sampleSource rfl rfl
  exact ⟨σ₂, merged, h₁, h₂, h₃, h₄ (by decide)⟩

/-! ## The documented tag, the aborts of the array builder, pointer types -/

/-- C17, the code at the documented example: for the tag literal of the doc
comment of `extractFromTag`, with the key `yaml`, the scan for `json:` fails on
the first rune, nothing is stored, and the pair returned is empty. -/
theorem extractFromTag_yaml_example :
    extractFromTag (some ⟨"\x60yaml:\"myField,omitempty\"\x60"⟩) = some ("", "") ∧
      Sscanf "yaml: myField,omitempty".data = [] := by
  constructor <;> rfl

/-- C13: `parseArrayType` aborts exactly when the element type is neither a plain
identifier nor a pointer to a plain identifier; so it returns no Definition for
an array of arrays, of maps, of qualified identifiers or of pointers to
qualified identifiers. -/
theorem parseArrayType_abort (P : Primitives) :
    (∀ Elt : Expr, parseArrayType P Elt = none ↔
      ∀ T : String, Elt ≠ .Ident T ∧ Elt ≠ .StarExpr (.Ident T)) ∧
    (∀ X : Expr, parseArrayType P (.ArrayType X) = none) ∧
    (∀ Key Value : Expr, parseArrayType P (.MapType Key Value) = none) ∧
    (∀ (X : Expr) (Sel : String), parseArrayType P (.SelectorExpr X Sel) = none) ∧
    (∀ (X : Expr) (Sel : String),
      parseArrayType P (.StarExpr (.SelectorExpr X Sel)) = none) := by
  refine ⟨?_, fun _ => rfl, fun _ _ => rfl, fun _ _ => rfl, fun _ _ => rfl⟩
  intro Elt
  constructor
  · intro h T
    constructor
    · rintro rfl
      simp [parseArrayType, getTypeNameOfArray] at h
    · rintro rfl
      simp [parseArrayType, getTypeNameOfArray] at h
  · intro h
    cases Elt with
    | Ident Name => exact absurd rfl (h Name).1
    | StarExpr X =>
      cases X with
      | Ident Name => exact absurd rfl (h Name).2
      | _ => rfl
    | _ => rfl

/-- The round of a field of pointer type is the round of the same field with the
identifier pointed to for type. -/
theorem parseField_pointer (P : Primitives) (st : LoopState) (doc T : String)
    (tag : Option BasicLit) :
    parseField P st ⟨doc, .StarExpr (.Ident T), tag⟩ = parseField P st ⟨doc, .Ident T, tag⟩ := by
  rfl

/-- C12: pointer-ness carries no schema meaning: replacing the type `T` of a field,
a plain identifier, by pointer-to-`T` leaves what `parseStructType` returns (the
Definition and the external-type index, or the abort) unchanged, whether the
field is inlined or not. -/
theorem parseStructType_pointer (P : Primitives) (pre post : List Field) (doc T : String)
    (tag : Option BasicLit) (typeName typeDescription : String) :
    parseStructType P (pre ++ ⟨doc, .StarExpr (.Ident T), tag⟩ :: post) typeName
        typeDescription =
      parseStructType P (pre ++ ⟨doc, .Ident T, tag⟩ :: post) typeName typeDescription := by
  have hloop : ∀ (fields : List Field) (st : LoopState),
      parseFields P (fields ++ ⟨doc, .StarExpr (.Ident T), tag⟩ :: post) st =
        parseFields P (fields ++ ⟨doc, .Ident T, tag⟩ :: post) st := by
    intro fields
    induction fields with
    | nil =>
      intro st
      simp only [List.nil_append, parseFields, parseField_pointer]
    | cons g rest ih =>
      intro st
      simp only [List.cons_append, parseFields]
      cases parseField P st g with
      | none => rfl
      | some st₁ => exact ih st₁
  unfold parseStructType
  rw [hloop]

/-- C15, the code at an inlined field: the type name of an identifier `T` and of a
pointer to `T` is `T`, but the switch has no case for a qualified identifier and
leaves the name empty; so the inlined field of type `pkg.Base` records the
reference `#/definitions/` with no type name after the prefix. -/
theorem parseStructType_inline_qualified :
    (∀ T : String, inlineTypeName (.Ident T) = some T ∧
      inlineTypeName (.StarExpr (.Ident T)) = some T) ∧
    (∀ (X : Expr) (Sel : String), inlineTypeName (.SelectorExpr X Sel) = some "") ∧
    parseStructType goPrimitives qualifiedInlineFields "Widget" "" =
      some ({ Definition.new with
        AllOf := [{ Definition.new with Ref := "#/definitions/" },
          { Definition.new with
            Required := ["name"],
            Properties := some [("name", { Definition.new with Typ := "string" })] }] },
        []) :=
  ⟨fun _ => ⟨rfl, rfl⟩, fun _ _ => rfl, rfl⟩

/-- What a Definition found within a Definition is: the Definition itself, or one
found within its `items`, its `additionalProperties`, a member of its `allOf`
or an entry of its `properties`. -/
theorem Nested_inv (d e : Definition) (h : Nested d e) :
    e = d ∨ (∃ i, d.Items = some i ∧ Nested i e) ∨
      (∃ a, d.AdditionalProperties = some a ∧ Nested a e) ∨
      (∃ m, m ∈ d.AllOf ∧ Nested m e) ∨
      (∃ entries key v, d.Properties = some entries ∧ (key, v) ∈ entries ∧ Nested v e) := by
  cases h with
  | self => exact Or.inl rfl
  | items _ i _ hi hn => exact Or.inr (Or.inl ⟨i, hi, hn⟩)
  | additionalProperties _ a _ ha hn => exact Or.inr (Or.inr (Or.inl ⟨a, ha, hn⟩))
  | allOf _ m _ hm hn => exact Or.inr (Or.inr (Or.inr (Or.inl ⟨m, hm, hn⟩)))
  | properties _ entries key v _ hp hmem hn =>
    exact Or.inr (Or.inr (Or.inr (Or.inr ⟨entries, key, v, hp, hmem, hn⟩)))

/-- A Definition without `items`, `additionalProperties`, `allOf` and `properties`
holds no Definition but itself. -/
theorem Nested_leaf (d e : Definition) (h₁ : d.Items = none)
    (h₂ : d.AdditionalProperties = none) (h₃ : d.AllOf = []) (h₄ : d.Properties = none)
    (h : Nested d e) : e = d := by
  rcases Nested_inv d e h with h₀ | ⟨i, hi, _⟩ | ⟨a, ha, _⟩ | ⟨m, hm, _⟩ | ⟨entries, _, _, hp, _, _⟩
  · exact h₀
  · rw [h₁] at hi; cases hi
  · rw [h₂] at ha; cases ha
  · rw [h₃] at hm; cases hm
  · rw [h₄] at hp; cases hp

/-- With an inlined field in the struct, `parseStructType` returns the composite
Definition: `allOf` alone, holding the inline references and then, when there is
an own field, the object Definition of the loop. -/
theorem parseStructType_composite (P : Primitives) (structType : List Field)
    (typeName typeDescription : String) (d : Definition) (ext : List (String × List String))
    (h : parseStructType P structType typeName typeDescription = some (d, ext))
    (hk : structType.filter isInlined ≠ []) :
    ∃ st : LoopState,
      parseFields P structType (initialState typeDescription) = some st ∧
      d = { Definition.new with
        AllOf := (structType.filter isInlined).map inlineReference ++
          (if (structType.filter isOwn).length = 0 then [] else [st.definition]) } := by
  obtain ⟨st, hst, _, hd⟩ := parseStructType_eq P structType typeName typeDescription d ext h
  obtain ⟨hinl, hobj⟩ := parseFields_split P structType _ st hst
  simp only [initialState, List.nil_append] at hinl
  have hil : ¬ st.inlineDefinitions.length = 0 := by simpa [hinl] using hk
  rw [if_neg hil] at hd
  refine ⟨st, hst, ?_⟩
  by_cases hm : mapLen st.definition.Properties = 0
  · have hno : structType.filter isOwn = [] := by
      by_contra hne
      exact parseFields_mapLen P structType _ st hst (Or.inr hne) hm
    subst hd
    simp [hm, hno, hinl]
  · have hsome : ¬ (structType.filter isOwn).length = 0 := by
      intro hlen
      apply hm
      have hnil : structType.filter isOwn = [] := List.length_eq_zero.mp hlen
      have := hobj []
      rw [hnil] at this
      simp only [parseFields, initialState, Option.some.injEq, LoopState.mk.injEq] at this
      rw [← this.1]
      rfl
    subst hd
    simp [hm, hsome, hinl]

/-- C20: with at least one inlined field, the composite Definition that
`parseStructType` returns has an empty description, and so has each inline
reference in its `allOf`; the description of the type is that of the trailing
object member, present when there is an own field; when every field is inlined,
every Definition found within the returned one has an empty description. -/
theorem parseStructType_description (P : Primitives) (structType : List Field)
    (typeName typeDescription : String) (d : Definition) (ext : List (String × List String))
    (h : parseStructType P structType typeName typeDescription = some (d, ext))
    (hk : structType.filter isInlined ≠ []) :
    d.Description = "" ∧
    (∃ trailing : List Definition,
      d.AllOf = (structType.filter isInlined).map inlineReference ++ trailing ∧
      (∀ r ∈ (structType.filter isInlined).map inlineReference, r.Description = "") ∧
      (structType.filter isOwn = [] → trailing = []) ∧
      (structType.filter isOwn ≠ [] →
        trailing = [objectDefinition d] ∧
          (objectDefinition d).Description = typeDescription)) ∧
    (structType.filter isOwn = [] → ∀ e : Definition, Nested d e → e.Description = "") := by
  obtain ⟨st, hst, hd⟩ :=
    parseStructType_composite P structType typeName typeDescription d ext h hk
  have hfr := parseFields_frame P structType _ st hst
  have hrefs : ∀ r ∈ (structType.filter isInlined).map inlineReference,
      r.Description = "" ∧ r.Items = none ∧ r.AdditionalProperties = none ∧ r.AllOf = [] ∧
        r.Properties = none := by
    intro r hr
    obtain ⟨field, _, rfl⟩ := List.mem_map.mp hr
    exact ⟨rfl, rfl, rfl, rfl, rfl⟩
  refine ⟨by rw [hd]; rfl, ⟨_, by rw [hd], fun r hr => (hrefs r hr).1, ?_, ?_⟩, ?_⟩
  · intro hno
    simp [hno]
  · intro hsome
    have hlen : ¬ (structType.filter isOwn).length = 0 := by simpa using hsome
    have hobj : objectDefinition d = st.definition := by
      rw [hd]
      simp [objectDefinition, hlen]
    rw [hobj]
    exact ⟨by simp [hlen], hfr.2.1⟩
  · intro hno e he
    have hdno : d = { Definition.new with
        AllOf := (structType.filter isInlined).map inlineReference } := by
      rw [hd]
      simp [hno]
    rcases Nested_inv d e he with
      h₀ | ⟨i, hi, _⟩ | ⟨a, ha, _⟩ | ⟨m, hm, hn⟩ | ⟨entries, _, _, hp, _, _⟩
    · rw [h₀, hdno]
      rfl
    · rw [hdno] at hi; cases hi
    · rw [hdno] at ha; cases ha
    · rw [hdno] at hm
      obtain ⟨h₀, h₁, h₂, h₃, h₄⟩ := hrefs m hm
      rw [Nested_leaf m e h₁ h₂ h₃ h₄ hn]
      exact h₀
    · rw [hdno] at hp; cases hp

/-- C20 on a struct whose two fields are inlined: the description of the type is
found nowhere in the composite Definition. -/
theorem parseStructType_description_witness :
    ∃ (d : Definition) (ext : List (String × List String)),
      parseStructType goPrimitives allInlineFields "Widget" "A widget.\n" = some (d, ext) ∧
      d.Description = "" ∧ ∀ e : Definition, Nested d e → e.Description = "" := by
  have hall := parseStructType_description goPrimitives allInlineFields "Widget" "A widget.\n"
    _ _ rfl (fun hnil => absurd (congrArg List.length hnil) (by decide))
  exact ⟨_, _, rfl, hall.1, hall.2.2 rfl⟩

/-- The type switch touches the external-type index for a qualified identifier
only, whose name it appends to the names under its prefix. -/
theorem classifyFieldType_externalTypes (P : Primitives) (fieldType : Expr)
    (ext₀ ext₁ : List (String × List String)) (property : Definition)
    (h : classifyFieldType P fieldType ext₀ = some (property, ext₁)) :
    ext₁ =
      match qualifiedOf fieldType with
      | some (pfx, Name) => mapSet ext₀ pfx (((mapGet ext₀ pfx).getD []) ++ [Name])
      | none => ext₀ := by
  have hsimple : ∀ (T : String) (a b : Definition),
      (if P.isSimpleType T = true then some (a, ext₀) else some (b, ext₀)) =
        some (property, ext₁) → ext₁ = ext₀ := by
    intro T a b hif
    split at hif <;> simp only [Option.some.injEq, Prod.mk.injEq] at hif <;> exact hif.2.symm
  cases fieldType with
  | Ident Name => exact hsimple Name _ _ h
  | StarExpr X =>
    cases X with
    | Ident Name => exact hsimple Name _ _ h
    | _ =>
      simp only [classifyFieldType, Option.some.injEq, Prod.mk.injEq] at h
      exact h.2.symm
  | ArrayType Elt =>
    simp only [classifyFieldType] at h
    cases harr : parseArrayType P Elt with
    | none => simp [harr] at h
    | some arrayDef =>
      simp only [harr, Option.some.injEq, Prod.mk.injEq] at h
      exact h.2.symm
  | MapType Key Value =>
    cases Value with
    | _ =>
      simp only [classifyFieldType, Option.some.injEq, Prod.mk.injEq] at h
      exact h.2.symm
  | SelectorExpr X Sel =>
    cases X with
    | Ident Name =>
      simp only [classifyFieldType, Option.some.injEq, Prod.mk.injEq] at h
      exact h.2.symm
    | _ => simp [classifyFieldType] at h
  | InterfaceType =>
    simp only [classifyFieldType, Option.some.injEq, Prod.mk.injEq] at h
    exact h.2.symm
  | other =>
    simp only [classifyFieldType, Option.some.injEq, Prod.mk.injEq] at h
    exact h.2.symm

/-- The external-type index after the loop: under each prefix, the names it had
followed by the names of the own fields of qualified type with that prefix. -/
theorem parseFields_externalTypes (P : Primitives) (p : String) (fields : List Field) :
    ∀ st st₂ : LoopState, parseFields P fields st = some st₂ →
      mapGet st₂.externalTypes p =
        if qualifiedNames p fields = [] then mapGet st.externalTypes p
        else some ((mapGet st.externalTypes p).getD [] ++ qualifiedNames p fields) := by
  induction fields with
  | nil =>
    intro st st₂ h
    simp only [parseFields, Option.some.injEq] at h
    subst h
    simp [qualifiedNames]
  | cons field rest ih =>
    intro st st₂ h
    obtain ⟨st₁, h₁, h₂⟩ := parseFields_cons P field rest st st₂ h
    rw [ih st₁ st₂ h₂]
    cases hin : isInlined field with
    | true =>
      have hst := parseField_inlined P st st₁ field hin h₁
      have hq : qualifiedNames p (field :: rest) = qualifiedNames p rest := by
        simp [qualifiedNames, List.filter_cons, isOwn, hin]
      rw [hq, hst]
    | false =>
      obtain ⟨property, ext₁, m, hcl, _, hst⟩ := parseField_own P st st₁ field hin h₁
      have hext := classifyFieldType_externalTypes P field.Type_ _ _ _ hcl
      have hst₁ : st₁.externalTypes = ext₁ := by rw [hst]
      rw [hst₁, hext]
      cases hqo : qualifiedOf field.Type_ with
      | none =>
        have hq : qualifiedNames p (field :: rest) = qualifiedNames p rest := by
          simp [qualifiedNames, List.filter_cons, isOwn, hin, hqo]
        rw [hq]
      | some pr =>
        obtain ⟨pfx, Name⟩ := pr
        by_cases hp : pfx = p
        · have hq : qualifiedNames p (field :: rest) = Name :: qualifiedNames p rest := by
            simp [qualifiedNames, List.filter_cons, isOwn, hin, hqo, hp]
          rw [hq]
          subst hp
          simp only [mapGet_mapSet, if_true, Option.getD_some]
          by_cases hr : qualifiedNames pfx rest = []
          · simp [hr]
          · simp [hr]
        · have hq : qualifiedNames p (field :: rest) = qualifiedNames p rest := by
            simp [qualifiedNames, List.filter_cons, isOwn, hin, hqo, hp]
          have hp₂ : ¬ p = pfx := fun e => hp e.symm
          rw [hq]
          simp only [mapGet_mapSet, if_neg hp₂]

/-- C11: the external-type index that `parseStructType` returns maps each prefix
`p` to the sequence of the names `N` of the own fields whose type is the
qualified identifier `p.N`, in declaration order, and has no entry for a prefix
without such a field; the fragment of such a field (read from the returned
object Definition, no later own field taking the same serialized name) has ref
`#/definitions/N` and no type. -/
theorem parseStructType_externalTypes (P : Primitives) (structType : List Field)
    (typeName typeDescription : String) (d : Definition) (ext : List (String × List String))
    (h : parseStructType P structType typeName typeDescription = some (d, ext)) :
    (∀ p : String,
      mapGet ext p =
        if qualifiedNames p structType = [] then none
        else some (qualifiedNames p structType)) ∧
    (∀ (pre post : List Field) (field : Field) (p N : String),
      structType = pre ++ field :: post → isInlined field = false →
      field.Type_ = .SelectorExpr (.Ident p) N →
      (∀ g ∈ post, isInlined g = false → fieldName g ≠ fieldName field) →
      ∃ fragment : Definition,
        propertyOf (objectDefinition d) (fieldName field) = some fragment ∧
        fragment.Ref = "#/definitions/" ++ N ∧ fragment.Typ = "") := by
  constructor
  · intro p
    obtain ⟨st, hst, hext, _⟩ :=
      parseStructType_eq P structType typeName typeDescription d ext h
    rw [hext, parseFields_externalTypes P p structType _ st hst]
    simp [initialState, mapGet]
  · intro pre post field p N hsplit hown hty hlast
    subst hsplit
    obtain ⟨property, ext₀, ext₁, hcl, hprop⟩ :=
      parseStructType_property P pre post field typeName typeDescription d ext hown hlast h
    refine ⟨_, hprop, ?_⟩
    rw [hty] at hcl
    simp only [classifyFieldType, Option.some.injEq, Prod.mk.injEq] at hcl
    rw [← hcl.1]
    exact ⟨rfl, rfl⟩

/-- C11 on a struct with the own fields `pkg.Spec`, `meta.Time` and `pkg.Status`
and the inlined field `pkg.Base`: the index holds `Spec` and `Status` under
`pkg` and `Time` under `meta`, and nothing under another prefix. -/
theorem parseStructType_externalTypes_witness :
    ∃ (d : Definition) (ext : List (String × List String)),
      parseStructType goPrimitives qualifiedFields "Widget" "" = some (d, ext) ∧
      mapGet ext "pkg" = some ["Spec", "Status"] ∧ mapGet ext "meta" = some ["Time"] ∧
      mapGet ext "other" = none := by
  have hall := (parseStructType_externalTypes goPrimitives qualifiedFields "Widget" "" _ _ rfl).1
  exact ⟨_, _, rfl, hall "pkg", hall "meta", hall "other"⟩

theorem mapKeys_mapSet {β : Type} (m : List (String × β)) (key : String) (value : β)
    (h : key ∉ mapKeys m) : mapKeys (mapSet m key value) = mapKeys m ++ [key] := by
  induction m with
  | nil => rfl
  | cons e rest ih =>
    obtain ⟨k₀, v₀⟩ := e
    have h₀ : ¬ k₀ = key := by
      intro e
      apply h
      simp [mapKeys, e]
    have hrest : key ∉ mapKeys rest := by
      intro hmem
      apply h
      simp only [mapKeys, List.map_cons, List.mem_cons]
      exact Or.inr hmem
    have := ih hrest
    simp only [mapKeys] at this ⊢
    simp [mapSet, h₀, this]

/-- The keys of the properties after the loop, when the names of the own fields are
new and pairwise distinct: the keys before it followed by those names, in
declaration order. -/
theorem parseFields_keys (P : Primitives) (fields : List Field) :
    ∀ (st st₂ : LoopState) (m : List (String × Definition)),
      parseFields P fields st = some st₂ → st.definition.Properties = some m →
      (mapKeys m ++ (fields.filter isOwn).map fieldName).Nodup →
      ∃ m₂, st₂.definition.Properties = some m₂ ∧
        mapKeys m₂ = mapKeys m ++ (fields.filter isOwn).map fieldName := by
  induction fields with
  | nil =>
    intro st st₂ m h hm _
    simp only [parseFields, Option.some.injEq] at h
    subst h
    exact ⟨m, hm, by simp⟩
  | cons field rest ih =>
    intro st st₂ m h hm hnd
    obtain ⟨st₁, h₁, h₂⟩ := parseFields_cons P field rest st st₂ h
    cases hin : isInlined field with
    | true =>
      have hst := parseField_inlined P st st₁ field hin h₁
      have hf : (field :: rest).filter isOwn = rest.filter isOwn := by
        simp [List.filter_cons, isOwn, hin]
      rw [hf] at hnd ⊢
      exact ih st₁ st₂ m h₂ (by rw [hst]; exact hm) hnd
    | false =>
      obtain ⟨property, ext₁, m₀, _, hm₀, hst⟩ := parseField_own P st st₁ field hin h₁
      have hmm : m₀ = m := by
        rw [hm] at hm₀
        exact (Option.some.inj hm₀).symm
      subst hmm
      have hf : (field :: rest).filter isOwn = field :: rest.filter isOwn := by
        simp [List.filter_cons, isOwn, hin]
      rw [hf] at hnd ⊢
      simp only [List.map_cons] at hnd ⊢
      have hnew : fieldName field ∉ mapKeys m₀ := by
        intro hmem
        have := List.nodup_append.mp hnd
        exact this.2.2 hmem (List.mem_cons_self _ _)
      have hkeys := mapKeys_mapSet m₀ (fieldName field)
        { property with Description := field.Doc } hnew
      have hnd₁ : (mapKeys (mapSet m₀ (fieldName field)
          { property with Description := field.Doc }) ++
          (rest.filter isOwn).map fieldName).Nodup := by
        rw [hkeys]
        simpa using hnd
      obtain ⟨m₂, hm₂, hk₂⟩ := ih st₁ st₂ _ h₂ (by rw [hst]) hnd₁
      exact ⟨m₂, hm₂, by rw [hk₂, hkeys]; simp⟩

/-- C18: when the own fields have pairwise distinct serialized names, the
properties of the object Definition that `parseStructType` builds have one
entry for each own field and no other, keyed by the serialized names in
declaration order, and the description of the entry of a field is the doc
comment of that field, whatever the shape of its type. -/
theorem parseStructType_properties (P : Primitives) (structType : List Field)
    (typeName typeDescription : String) (d : Definition) (ext : List (String × List String))
    (h : parseStructType P structType typeName typeDescription = some (d, ext))
    (hdistinct : ((structType.filter isOwn).map fieldName).Nodup) :
    mapKeys ((objectDefinition d).Properties.getD []) =
        (structType.filter isOwn).map fieldName ∧
      ∀ field ∈ structType.filter isOwn,
        ∃ fragment : Definition,
          propertyOf (objectDefinition d) (fieldName field) = some fragment ∧
          fragment.Description = field.Doc := by
  constructor
  · by_cases hown : structType.filter isOwn = []
    · rw [hown]
      obtain ⟨st, hst, _, hd⟩ :=
        parseStructType_eq P structType typeName typeDescription d ext h
      obtain ⟨hinl, hobj⟩ := parseFields_split P structType _ st hst
      have hfr := parseFields_frame P structType _ st hst
      simp only [initialState, List.nil_append] at hinl hfr
      have hdef : st.definition = (initialState typeDescription).definition := by
        have := hobj []
        rw [hown] at this
        simp only [parseFields, Option.some.injEq, LoopState.mk.injEq] at this
        exact this.1.symm
      have hm : mapLen st.definition.Properties = 0 := by rw [hdef]; rfl
      by_cases hil : st.inlineDefinitions.length = 0
      · rw [if_pos hil] at hd
        have hall : st.definition.AllOf = [] := by rw [hfr.1]; rfl
        have hobjd : objectDefinition d = st.definition := by
          simp [objectDefinition, hall, hd]
        rw [hobjd, hdef]
        rfl
      · rw [if_neg hil] at hd
        have hall : d.AllOf = (structType.filter isInlined).map inlineReference := by
          rw [hd]
          simp [hm, hinl]
        unfold objectDefinition
        rw [hall]
        cases hlast : ((structType.filter isInlined).map inlineReference).getLast? with
        | none =>
          exfalso
          apply hil
          rw [hinl]
          simpa using hlast
        | some member =>
          have hmem := List.mem_of_getLast?_eq_some hlast
          obtain ⟨field, _, hfield⟩ := List.mem_map.mp hmem
          simp only []
          rw [← hfield]
          rfl
    · obtain ⟨st, hst, _, hobj⟩ :=
        objectDefinition_of_own P structType typeName typeDescription d ext h hown
      obtain ⟨m₂, hm₂, hk₂⟩ := parseFields_keys P structType _ st [] hst rfl
        (by simpa [mapKeys] using hdistinct)
      rw [hobj, hm₂, Option.getD_some, hk₂]
      simp [mapKeys]
  · intro field hmem
    obtain ⟨hin, hown⟩ := List.mem_filter.mp hmem
    obtain ⟨pre, post, hsplit⟩ := List.append_of_mem hin
    have hinl : isInlined field = false := by simpa [isOwn] using hown
    subst hsplit
    have hlast : ∀ g ∈ post, isInlined g = false → fieldName g ≠ fieldName field := by
      intro g hg hgown heq
      have hg₂ : isOwn g = true := by simp [isOwn, hgown]
      rw [List.filter_append, List.filter_cons, hown] at hdistinct
      simp only [if_true, List.map_append, List.map_cons] at hdistinct
      have hnd := (List.nodup_append.mp hdistinct).2.1
      have hnot := (List.nodup_cons.mp hnd).1
      apply hnot
      rw [← heq]
      exact List.mem_map.mpr ⟨g, List.mem_filter.mpr ⟨hg, hg₂⟩, rfl⟩
    obtain ⟨property, ext₀, ext₁, _, hprop⟩ :=
      parseStructType_property P pre post field typeName typeDescription d ext hinl hlast h
    exact ⟨_, hprop, rfl⟩

/-- C18 on the struct `Widget`: the properties are `name`, `size` and `owner`, and
the entry `name` carries the doc comment of the field. -/
theorem parseStructType_properties_witness :
    ∃ (d : Definition) (ext : List (String × List String)) (fragment : Definition),
      parseStructType goPrimitives widgetFields "Widget" "" = some (d, ext) ∧
      mapKeys ((objectDefinition d).Properties.getD []) = ["name", "size", "owner"] ∧
      propertyOf (objectDefinition d) "name" = some fragment ∧
      fragment.Description = "Name of the widget.\n" := by
  have hall := parseStructType_properties goPrimitives widgetFields "Widget" "" _ _ rfl
    (by decide)
  obtain ⟨fragment, h₁, h₂⟩ := hall.2 ⟨"Name of the widget.\n", .Ident "string", jsonTag "name"⟩
    (by simp [widgetFields, isOwn, isInlined, fieldOption, jsonTag]; decide)
  exact ⟨_, _, fragment, rfl, hall.1, h₁, h₂⟩

/-! ## The tag interpreter on a literal of several keys -/

theorem takeWhile_notSpace_append (v w : List Char) (hw : isWord v)
    (hhead : ∀ c, w.head? = some c → isSpace c = true) :
    (v ++ w).takeWhile (fun r => !isSpace r) = v := by
  induction v with
  | nil =>
    cases w with
    | nil => rfl
    | cons c cs =>
      have hc : isSpace c = true := hhead c rfl
      simp [List.takeWhile, hc]
  | cons c cs ih =>
    have hc : isSpace c = false := hw c (List.mem_cons_self _ _)
    have hcs := ih fun d hd => hw d (List.mem_cons_of_mem _ hd)
    simp [List.takeWhile, hc, hcs]

/-- The scan of `json: ` followed by a word gives the word, whatever follows the
word after a space. -/
theorem Sscanf_json_word_tail (v w : List Char) (hne : v ≠ []) (hw : isWord v)
    (hhead : ∀ c, w.head? = some c → isSpace c = true) :
    Sscanf ("json:".data ++ ' ' :: (v ++ w)) = v := by
  obtain ⟨c, cs, rfl⟩ := List.exists_cons_of_ne_nil hne
  have hc : isSpace c = false := hw c (List.mem_cons_self _ _)
  have h₁ : advanceLiteral "json:".data ("json:".data ++ ' ' :: (c :: cs ++ w)) =
      some (' ' :: (c :: cs ++ w)) := by
    simp [advanceLiteral]
  have h₂ : advanceSpace (' ' :: (c :: cs ++ w)) = some (c :: (cs ++ w)) := by
    simp [advanceSpace, isSpace_space, List.dropWhile, hc]
  have h₃ := SkipSpace_word c (cs ++ w) hc
  have h₄ : convertString (c :: (cs ++ w)) = some (c :: cs) := by
    have := takeWhile_notSpace_append (c :: cs) w hw hhead
    simp only [List.cons_append] at this
    simp [convertString, token, h₃, this]
  simp only [Sscanf, h₁, Option.some_bind, h₂, h₃, h₄]

theorem dropWhile_append_stop (p : Char → Bool) (a : List Char) (c : Char) (cs : List Char)
    (hc : p c = false) : (a ++ c :: cs).dropWhile p = a.dropWhile p ++ c :: cs := by
  induction a with
  | nil => simp [List.dropWhile, hc]
  | cons x xs ih =>
    by_cases hx : p x = true
    · simp [List.dropWhile, hx, ih]
    · have hx₂ : p x = false := by simpa using hx
      simp [List.dropWhile, hx₂]

/-- The string `TrimSpace` leaves of a `json` key with a word for value, after one
space and before any text: the text loses its trailing white space. -/
theorem TrimSpace_json_tail (v tail : List Char) (hne : v ≠ []) (hw : isWord v) :
    TrimSpace (' ' :: ("json:".data ++ ' ' :: v) ++ tail) =
      "json:".data ++ ' ' :: (v ++ (tail.reverse.dropWhile isSpace).reverse) := by
  have hrev : v.reverse ≠ [] := by simpa using hne
  obtain ⟨c, cs, hcs⟩ := List.exists_cons_of_ne_nil hrev
  have hc : isSpace c = false := by
    apply hw
    have : c ∈ v.reverse := by rw [hcs]; exact List.mem_cons_self _ _
    simpa using this
  have hlead : (' ' :: ("json:".data ++ ' ' :: v) ++ tail).dropWhile isSpace =
      ("json:".data ++ ' ' :: v) ++ tail := by
    have : (' ' :: ("json:".data ++ ' ' :: v) ++ tail).dropWhile isSpace =
        (("json:".data ++ ' ' :: v) ++ tail).dropWhile isSpace := by
      simp [List.dropWhile, isSpace_space]
    rw [this]
    exact dropWhile_isSpace_word 'j' _ (by decide)
  have hcore : ("json:".data ++ ' ' :: v).reverse = c :: (cs ++ (' ' :: "json:".data.reverse)) := by
    rw [List.reverse_append, List.reverse_cons, hcs]
    simp
  unfold TrimSpace
  rw [hlead, List.reverse_append, hcore, dropWhile_append_stop isSpace _ c _ hc, ← hcore,
    List.reverse_append, List.reverse_reverse]
  simp

/-- The text `TrimSpace` leaves of a text that starts with a space is empty or
starts with that space. -/
theorem rtrim_head (tail : List Char) (c : Char)
    (h : ((' ' :: tail).reverse.dropWhile isSpace).reverse.head? = some c) :
    isSpace c = true := by
  have hpre : ((' ' :: tail).reverse.dropWhile isSpace).reverse <+: ' ' :: tail :=
    List.rdropWhile_prefix isSpace (' ' :: tail)
  obtain ⟨t, ht⟩ := hpre
  cases hx : ((' ' :: tail).reverse.dropWhile isSpace).reverse with
  | nil => rw [hx] at h; cases h
  | cons x xs =>
    rw [hx] at h ht
    simp only [List.cons_append, List.cons.injEq] at ht
    simp only [List.head?_cons, Option.some.injEq] at h
    rw [← h, ht.1]
    exact isSpace_space

/-- C19, as amended: for a raw tag literal that starts with the `json` key, whose
value `V` is non-empty and holds no white space, no double quote and no
backtick, `extractFromTag` returns the name and the first option of `V`,
whatever text (other keys) follows the `json` key in the literal. -/
theorem extractFromTag_json_first (V rest : String) (hne : V ≠ "")
    (hV : ∀ c ∈ V.data, isSpace c = false ∧ c ≠ '"' ∧ c ≠ '\x60') :
    extractFromTag (some ⟨"\x60json:\"" ++ V ++ "\"" ++ rest ++ "\x60"⟩) =
      some (if ',' ∈ V.data then
          (String.mk (V.data.takeWhile fun c => c != ','),
            String.mk (((V.data.dropWhile fun c => c != ',').drop 1).takeWhile
              fun c => c != ','))
        else (V, "")) := by
  have hv : V.data ≠ [] := by
    intro h
    apply hne
    cases V
    simp_all
  have hlit : ("\x60json:\"" ++ V ++ "\"" ++ rest ++ "\x60" : String) ≠ "" := by
    intro h
    have := congrArg String.length h
    simp only [String.length_append] at this
    have h₂ : ("\x60" : String).length = 1 := by decide
    have h₃ : ("" : String).length = 0 := rfl
    omega
  have hdata : ("\x60json:\"" ++ V ++ "\"" ++ rest ++ "\x60" : String).data =
      "\x60json:\"".data ++ V.data ++ "\"".data ++ rest.data ++ "\x60".data := by
    simp [String.data_append]
  have hw : isWord V.data := fun c hc => (hV c hc).1
  have h₁ : removeChar (removeChar V.data '\x60') '"' = V.data := by
    rw [removeChar_of_not_mem V.data _ fun c hc => (hV c hc).2.2,
      removeChar_of_not_mem V.data _ fun c hc => (hV c hc).2.1]
  have h₂ : removeChar (removeChar "\x60json:\"".data '\x60') '"' =
      ' ' :: ("json:".data ++ [' ']) := by decide
  have h₃ : removeChar (removeChar "\"".data '\x60') '"' = [' '] := by decide
  have h₄ : removeChar (removeChar "\x60".data '\x60') '"' = [' '] := by decide
  have hblank : removeChar (removeChar ("\x60json:\"".data ++ V.data ++ "\"".data ++
      rest.data ++ "\x60".data) '\x60') '"' =
      ' ' :: ("json:".data ++ ' ' :: V.data) ++
        ' ' :: (removeChar (removeChar rest.data '\x60') '"' ++ [' ']) := by
    simp only [removeChar_append, h₁, h₂, h₃, h₄]
    simp
  have hscan := Sscanf_json_word_tail V.data _ hv hw
    (rtrim_head (removeChar (removeChar rest.data '\x60') '"' ++ [' ']))
  unfold extractFromTag
  simp only [if_neg hlit, hdata, hblank, TrimSpace_json_tail V.data _ hv hw, hscan]
  by_cases hc : ',' ∈ V.data
  · have hcont : Contains V.data ',' = true := by simpa [Contains] using hc
    rw [if_pos hcont, if_pos hc, Split_eq V.data ',', if_pos hc, Split_eq _ ',']
  · have hcont : ¬ (Contains V.data ',' = true) := by simpa [Contains] using hc
    rw [if_neg hcont, if_neg hc]

/-- C19 as amended, on a literal with the `json` key first and a `yaml` key after
it. -/
theorem extractFromTag_json_first_witness :
    extractFromTag (some ⟨"\x60json:\"b,omitempty\" yaml:\"a\"\x60"⟩) =
      some ("b", "omitempty") :=
  extractFromTag_json_first "b,omitempty" " yaml:\"a\"" (by decide) (by decide)

/-- C19 as stated fails on its own example: with the `yaml` key first the scan for
`json:` fails on the first rune, and the name and the option returned are
empty, not `b` and `omitempty`. -/
theorem extractFromTag_json_second :
    extractFromTag (some ⟨"\x60yaml:\"a\" json:\"b,omitempty\"\x60"⟩) = some ("", "") ∧
      extractFromTag (some ⟨"\x60yaml:\"a\" json:\"b,omitempty\"\x60"⟩) ≠
        some ("b", "omitempty") := by
  constructor <;> decide

/-! ## Merging the members of a composite Definition -/

theorem mapKeys_mapSet_mem {β : Type} (m : List (String × β)) (key : String) (value : β)
    (h : key ∈ mapKeys m) : mapKeys (mapSet m key value) = mapKeys m := by
  induction m with
  | nil => cases h
  | cons e rest ih =>
    obtain ⟨k₀, v₀⟩ := e
    by_cases h₀ : k₀ = key
    · simp [mapSet, mapKeys, h₀]
    · have hrest : key ∈ mapKeys rest := by
        simp only [mapKeys, List.map_cons, List.mem_cons] at h
        rcases h with h | h
        · exact absurd h.symm h₀
        · exact h
      have := ih hrest
      simp only [mapKeys] at this ⊢
      simp [mapSet, h₀, this]

theorem mapKeys_mapSet_nodup {β : Type} (m : List (String × β)) (key : String) (value : β)
    (h : (mapKeys m).Nodup) : (mapKeys (mapSet m key value)).Nodup := by
  by_cases hmem : key ∈ mapKeys m
  · rw [mapKeys_mapSet_mem m key value hmem]
    exact h
  · rw [mapKeys_mapSet m key value hmem]
    exact List.nodup_append.mpr ⟨h, List.nodup_singleton _, by
      intro a ha hb
      simp only [List.mem_singleton] at hb
      exact hmem (hb ▸ ha)⟩

/-- The loop keeps the keys of the properties pairwise distinct. -/
theorem parseFields_nodup (P : Primitives) (fields : List Field) :
    ∀ st st₂ : LoopState, parseFields P fields st = some st₂ →
      (mapKeys (st.definition.Properties.getD [])).Nodup →
      (mapKeys (st₂.definition.Properties.getD [])).Nodup := by
  induction fields with
  | nil =>
    intro st st₂ h hnd
    simp only [parseFields, Option.some.injEq] at h
    subst h
    exact hnd
  | cons field rest ih =>
    intro st st₂ h hnd
    obtain ⟨st₁, h₁, h₂⟩ := parseFields_cons P field rest st st₂ h
    apply ih st₁ st₂ h₂
    cases hin : isInlined field with
    | true =>
      rw [parseField_inlined P st st₁ field hin h₁]
      exact hnd
    | false =>
      obtain ⟨property, ext₁, m, _, hm, hst⟩ := parseField_own P st st₁ field hin h₁
      rw [hst]
      rw [hm] at hnd
      exact mapKeys_mapSet_nodup m _ _ hnd

theorem mergeDefinitions_result (σ : Store) (lhsDef rhsDef : Nat) (target source : Definition)
    (hl : σ lhsDef = some target) (hr : σ rhsDef = some source) :
    mergeDefinitions σ lhsDef rhsDef = some (σ.write lhsDef (mergeResult target source)) :=
  mergeDefinitions_eq σ lhsDef rhsDef target source hl hr

theorem Store.write_self (σ : Store) (p : Nat) (d : Definition) (h : σ p = some d) :
    σ.write p d = σ := by
  funext q
  by_cases hq : q = p
  · simp [Store.write, hq, h]
  · simp [Store.write, hq]

theorem forall₂_imp_mem {α β : Type} {R S : α → β → Prop} {l₁ : List α} {l₂ : List β}
    (h : List.Forall₂ R l₁ l₂) (himp : ∀ a b, a ∈ l₁ → R a b → S a b) :
    List.Forall₂ S l₁ l₂ := by
  induction h with
  | nil => exact List.Forall₂.nil
  | cons hab _ ih =>
    exact List.Forall₂.cons (himp _ _ (List.mem_cons_self _ _) hab)
      (ih fun a b ha hr => himp a b (List.mem_cons_of_mem _ ha) hr)

/-- The accumulation loop merges the members one after the other into the
accumulator, and writes no other cell. -/
theorem mergeMembers_eq (accumulator : Nat) (members : List Nat) :
    ∀ (σ : Store) (a : Definition) (ms : List Definition),
      σ accumulator = some a →
      List.Forall₂ (fun p m => σ p = some m) members ms →
      accumulator ∉ members →
      mergeMembers σ accumulator members =
        some (σ.write accumulator (ms.foldl mergeResult a)) := by
  induction members with
  | nil =>
    intro σ a ms ha hall _
    cases hall
    simp [mergeMembers, Store.write_self σ accumulator a ha]
  | cons p rest ih =>
    intro σ a ms ha hall hfresh
    cases hall with
    | cons hp hrest =>
      rename_i m ms₁
      have hne : ∀ q ∈ rest, q ≠ accumulator := by
        intro q hq e
        exact hfresh (e ▸ List.mem_cons_of_mem _ hq)
      have hrest₂ : List.Forall₂
          (fun q m₂ => (σ.write accumulator (mergeResult a m)) q = some m₂) rest ms₁ :=
        forall₂_imp_mem hrest fun q m₂ hq hqm => by
          rw [Store.write_other _ _ _ _ (hne q hq)]
          exact hqm
      simp only [mergeMembers, mergeDefinitions_result σ accumulator p a m ha hp,
        List.foldl_cons]
      rw [ih (σ.write accumulator (mergeResult a m)) (mergeResult a m) ms₁
        (Store.write_same _ _ _) hrest₂ (fun hmem => hfresh (List.mem_cons_of_mem _ hmem)),
        Store.write_write]

/-- Merging inline references into an accumulator without description and without
entries leaves it so. -/
theorem foldl_mergeResult_references (refs : List Definition)
    (hrefs : ∀ r ∈ refs, r.Properties = none ∧ r.Description = "") :
    ∀ a : Definition, a.Description = "" → a.Properties.getD [] = [] →
      (refs.foldl mergeResult a).Description = "" ∧
        (refs.foldl mergeResult a).Properties.getD [] = [] := by
  induction refs with
  | nil =>
    intro a h₁ h₂
    exact ⟨h₁, h₂⟩
  | cons r rest ih =>
    intro a h₁ h₂
    obtain ⟨hp, hd⟩ := hrefs r (List.mem_cons_self _ _)
    rw [List.foldl_cons]
    apply ih (fun q hq => hrefs q (List.mem_cons_of_mem _ hq))
    · simp [mergeResult, h₁, hd]
    · simp [mergeResult, hp, h₂]

/-- C14: for a struct with at least one inlined field and at least one own field,
merging the members of the `allOf` that `parseStructType` returns, in sequence
order with `mergeDefinitions`, into an empty Definition gives a Definition whose
properties are those of the object Definition built from the own fields alone
(the inline references bring none) and whose description is the description of
the type. -/
theorem mergeMembers_allOf (P : Primitives) (structType : List Field)
    (typeName typeDescription : String) (d : Definition) (ext : List (String × List String))
    (σ : Store) (accumulator : Nat) (members : List Nat)
    (h : parseStructType P structType typeName typeDescription = some (d, ext))
    (hk : structType.filter isInlined ≠ []) (hm : structType.filter isOwn ≠ [])
    (hacc : σ accumulator = some Definition.new)
    (hmem : List.Forall₂ (fun p m => σ p = some m) members d.AllOf)
    (hfresh : accumulator ∉ members) :
    ∃ (σ₂ : Store) (merged object : Definition),
      mergeMembers σ accumulator members = some σ₂ ∧ σ₂ accumulator = some merged ∧
      parseStructType P (structType.filter isOwn) typeName typeDescription =
        some (object, ext) ∧
      (∀ key : String, propertyOf merged key = propertyOf object key) ∧
      merged.Description = typeDescription := by
  obtain ⟨st, hst, hd⟩ :=
    parseStructType_composite P structType typeName typeDescription d ext h hk
  obtain ⟨st₀, hst₀, hext, _⟩ :=
    parseStructType_eq P structType typeName typeDescription d ext h
  have hsame : st₀ = st := by
    rw [hst] at hst₀
    exact (Option.some.inj hst₀).symm
  subst hsame
  have hfr := parseFields_frame P structType _ st₀ hst
  have hnd := parseFields_nodup P structType _ st₀ hst (by simp [initialState, mapKeys])
  obtain ⟨_, hobj⟩ := parseFields_split P structType _ st₀ hst
  have hown : parseStructType P (structType.filter isOwn) typeName typeDescription =
      some (st₀.definition, ext) := by
    unfold parseStructType
    have := hobj []
    simp only [initialState] at this ⊢
    rw [this, hext]
    simp
  have hlen : ¬ (structType.filter isOwn).length = 0 := by simpa using hm
  have hall : d.AllOf =
      (structType.filter isInlined).map inlineReference ++ [st₀.definition] := by
    rw [hd]
    simp [hlen]
  rw [hall] at hmem
  have hrefs : ∀ r ∈ (structType.filter isInlined).map inlineReference,
      r.Properties = none ∧ r.Description = "" := by
    intro r hr
    obtain ⟨field, _, rfl⟩ := List.mem_map.mp hr
    exact ⟨rfl, rfl⟩
  obtain ⟨hdesc, hprops⟩ := foldl_mergeResult_references _ hrefs Definition.new rfl rfl
  refine ⟨_, _, st₀.definition, mergeMembers_eq accumulator members σ Definition.new _ hacc
    hmem hfresh, Store.write_same _ _ _, hown, ?_, ?_⟩
  · intro key
    rw [List.foldl_append, List.foldl_cons, List.foldl_nil]
    have hobjp : propertyOf st₀.definition key =
        mapGet (st₀.definition.Properties.getD []) key := by
      unfold propertyOf
      cases st₀.definition.Properties <;> rfl
    rw [hobjp]
    simp only [propertyOf, mergeResult, hprops]
    rw [mapGet_foldl_mapSet _ [] key hnd]
    cases mapGet (st₀.definition.Properties.getD []) key <;> rfl
  · rw [List.foldl_append, List.foldl_cons, List.foldl_nil]
    simp only [mergeResult, hdesc]
    simp only [String.length, List.length_nil, if_true]
    exact hfr.2.1

/-- C14 on the struct with two inlined types and the own field `name`: merged into
cell 0, the three members of `allOf` give the property `name` and the
description of the type. -/
theorem mergeMembers_allOf_witness :
    ∃ (σ₂ : Store) (merged : Definition),
      mergeMembers flattenStore 0 [1, 2, 3] = some σ₂ ∧ σ₂ 0 = some merged ∧
      propertyOf merged "name" = some { Definition.new with Typ := "string" } ∧
      propertyOf merged "other" = none ∧
      merged.Description = "A widget.\n" := by
  obtain ⟨σ₂, merged, object, h₁, h₂, h₃, h₄, h₅⟩ :=
    mergeMembers_allOf goPrimitives embeddingFields "Widget" "A widget.\n" _ _
      flattenStore 0 [1, 2, 3] rfl
      (fun hnil => absurd (congrArg List.length hnil) (by decide))
      (fun hnil => absurd (congrArg List.length hnil) (by decide))
      rfl
      (List.Forall₂.cons rfl (List.Forall₂.cons rfl (List.Forall₂.cons rfl List.Forall₂.nil)))
      (by decide)
  have hobj : object = { Definition.new with
      Description := "A widget.\n", Required := ["name"],
      Properties := some [("name", { Definition.new with Typ := "string" })] } := by
    have hval : parseStructType goPrimitives (embeddingFields.filter isOwn) "Widget"
        "A widget.\n" = some ({ Definition.new with
          Description := "A widget.\n", Required := ["name"],
          Properties := some [("name", { Definition.new with Typ := "string" })] }, []) := rfl
    rw [hval] at h₃
    exact (Prod.mk.inj (Option.some.inj h₃)).1.symm
  refine ⟨σ₂, merged, h₁, h₂, ?_, ?_, h₅⟩
  · rw [h₄ "name", hobj]
    rfl
  · rw [h₄ "other", hobj]
    rfl

/-! ## The shapes of the Definitions produced -/

theorem atMostOneShape_of_leaf (i e : Definition) (hi : isLeafShape i) (h : Nested i e) :
    atMostOneShape e := by
  obtain ⟨h₁, h₂, h₃, h₄, h₅⟩ := hi
  rw [Nested_leaf i e h₁ h₂ h₃ h₄ h]
  exact ⟨h₅, fun hne => absurd h₃ hne⟩

theorem atMostOneShape_of_fragment (v e : Definition) (hv : isFragmentShape v)
    (h : Nested v e) : atMostOneShape e := by
  obtain ⟨h₁, h₂, h₃, h₄, h₅⟩ := hv
  rcases Nested_inv v e h with
    h₀ | ⟨i, hi, hn⟩ | ⟨a, ha, hn⟩ | ⟨m, hm, _⟩ | ⟨entries, _, _, hp, _, _⟩
  · rw [h₀]
    exact ⟨h₃, fun hne => absurd h₁ hne⟩
  · exact atMostOneShape_of_leaf i e (h₄ i hi) hn
  · exact atMostOneShape_of_leaf a e (h₅ a ha) hn
  · rw [h₁] at hm; cases hm
  · rw [h₂] at hp; cases hp

/-- What `parseArrayType` returns is of fragment shape, with type `array` and
`items` set. -/
theorem parseArrayType_shape (P : Primitives) (Elt : Expr) (d : Definition)
    (h : parseArrayType P Elt = some d) :
    d.Typ = "array" ∧ d.Items.isSome = true ∧ d.Ref = "" ∧ isFragmentShape d := by
  unfold parseArrayType at h
  cases hname : getTypeNameOfArray Elt with
  | none => simp [hname] at h
  | some T =>
    simp only [hname, Option.some.injEq] at h
    subst h
    refine ⟨rfl, rfl, rfl, rfl, rfl, Or.inr rfl, ?_, ?_⟩
    · intro i hi
      simp only [Option.some.injEq] at hi
      subst hi
      by_cases hs : P.isSimpleType T = true
      · simp only [hs, if_true]
        exact ⟨rfl, rfl, rfl, rfl, Or.inr rfl⟩
      · simp only [hs, if_false]
        exact ⟨rfl, rfl, rfl, rfl, Or.inl rfl⟩
    · intro a ha
      cases ha

/-- Every fragment of the type switch is of fragment shape. -/
theorem classifyFieldType_shape (P : Primitives) (fieldType : Expr)
    (ext₀ ext₁ : List (String × List String)) (property : Definition)
    (h : classifyFieldType P fieldType ext₀ = some (property, ext₁)) :
    isFragmentShape property := by
  have hnew : isFragmentShape Definition.new :=
    ⟨rfl, rfl, Or.inl rfl, fun i hi => (by cases hi), fun a ha => (by cases ha)⟩
  have hsimple : ∀ T : String,
      (if P.isSimpleType T = true then
          some ({ Definition.new with Typ := P.jsonifyType T }, ext₀)
        else some ({ Definition.new with Ref := getDefLink T }, ext₀)) =
        some (property, ext₁) → isFragmentShape property := by
    intro T hif
    split at hif <;> simp only [Option.some.injEq, Prod.mk.injEq] at hif <;> rw [← hif.1]
    · exact ⟨rfl, rfl, Or.inr rfl, fun i hi => (by cases hi), fun a ha => (by cases ha)⟩
    · exact ⟨rfl, rfl, Or.inl rfl, fun i hi => (by cases hi), fun a ha => (by cases ha)⟩
  have hobject : isFragmentShape { Definition.new with Typ := "object" } :=
    ⟨rfl, rfl, Or.inr rfl, fun i hi => (by cases hi), fun a ha => (by cases ha)⟩
  cases fieldType with
  | Ident Name => exact hsimple Name h
  | StarExpr X =>
    cases X with
    | Ident Name => exact hsimple Name h
    | _ =>
      simp only [classifyFieldType, Option.some.injEq, Prod.mk.injEq] at h
      rw [← h.1]
      exact hnew
  | ArrayType Elt =>
    simp only [classifyFieldType] at h
    cases harr : parseArrayType P Elt with
    | none => simp [harr] at h
    | some arrayDef =>
      simp only [harr, Option.some.injEq, Prod.mk.injEq] at h
      rw [← h.1]
      exact (parseArrayType_shape P Elt arrayDef harr).2.2.2
  | MapType Key Value =>
    cases Value with
    | Ident Name =>
      simp only [classifyFieldType, Option.some.injEq, Prod.mk.injEq] at h
      rw [← h.1]
      refine ⟨rfl, rfl, Or.inr rfl, fun i hi => (by cases hi), ?_⟩
      intro a ha
      simp only [Option.some.injEq] at ha
      subst ha
      by_cases hs : P.isSimpleType Name = true
      · simp only [hs, if_true]
        exact ⟨rfl, rfl, rfl, rfl, Or.inr rfl⟩
      · simp only [hs, if_false]
        exact ⟨rfl, rfl, rfl, rfl, Or.inl rfl⟩
    | _ =>
      simp only [classifyFieldType, Option.some.injEq, Prod.mk.injEq] at h
      rw [← h.1]
      exact hobject
  | SelectorExpr X Sel =>
    cases X with
    | Ident Name =>
      simp only [classifyFieldType, Option.some.injEq, Prod.mk.injEq] at h
      rw [← h.1]
      exact ⟨rfl, rfl, Or.inl rfl, fun i hi => (by cases hi), fun a ha => (by cases ha)⟩
    | _ => simp [classifyFieldType] at h
  | InterfaceType =>
    simp only [classifyFieldType, Option.some.injEq, Prod.mk.injEq] at h
    rw [← h.1]
    exact hnew
  | other =>
    simp only [classifyFieldType, Option.some.injEq, Prod.mk.injEq] at h
    rw [← h.1]
    exact hnew

theorem mem_mapSet {β : Type} (m : List (String × β)) (key : String) (value : β)
    (e : String × β) (h : e ∈ mapSet m key value) : e ∈ m ∨ e = (key, value) := by
  induction m with
  | nil =>
    simp only [mapSet, List.mem_singleton] at h
    exact Or.inr h
  | cons e₀ rest ih =>
    obtain ⟨k₀, v₀⟩ := e₀
    by_cases h₀ : k₀ = key
    · simp only [mapSet, h₀, if_true, List.mem_cons] at h
      rcases h with h | h
      · exact Or.inr h
      · exact Or.inl (List.mem_cons_of_mem _ h)
    · simp only [mapSet, h₀, if_false, List.mem_cons] at h
      rcases h with h | h
      · exact Or.inl (h ▸ List.mem_cons_self _ _)
      · rcases ih h with h₂ | h₂
        · exact Or.inl (List.mem_cons_of_mem _ h₂)
        · exact Or.inr h₂

/-- The loop keeps every entry of the properties of fragment shape. -/
theorem parseFields_shape (P : Primitives) (fields : List Field) :
    ∀ st st₂ : LoopState, parseFields P fields st = some st₂ →
      (∀ m, st.definition.Properties = some m → ∀ e ∈ m, isFragmentShape e.2) →
      ∀ m, st₂.definition.Properties = some m → ∀ e ∈ m, isFragmentShape e.2 := by
  induction fields with
  | nil =>
    intro st st₂ h hsh
    simp only [parseFields, Option.some.injEq] at h
    subst h
    exact hsh
  | cons field rest ih =>
    intro st st₂ h hsh
    obtain ⟨st₁, h₁, h₂⟩ := parseFields_cons P field rest st st₂ h
    apply ih st₁ st₂ h₂
    cases hin : isInlined field with
    | true =>
      rw [parseField_inlined P st st₁ field hin h₁]
      exact hsh
    | false =>
      obtain ⟨property, ext₁, m₀, hcl, hm₀, hst⟩ := parseField_own P st st₁ field hin h₁
      rw [hst]
      intro m hm e he
      simp only [Option.some.injEq] at hm
      subst hm
      rcases mem_mapSet m₀ _ _ e he with hold | hnew
      · exact hsh m₀ hm₀ e hold
      · rw [hnew]
        obtain ⟨s₁, s₂, s₃, s₄, s₅⟩ := classifyFieldType_shape P field.Type_ _ _ _ hcl
        exact ⟨s₁, s₂, s₃, s₄, s₅⟩

/-- C16 as stated fails on the simplest struct: for a struct with the single field
`Name string`, the Definition that `parseStructType` returns, the object
Definition of the struct, has neither type, ref nor allOf and is in none of
the four shapes; and for a field of a type the type switch has no case for,
as `Any interface{}`, the property fragment has neither type, ref nor allOf
either. -/
theorem parseStructType_object_shape :
    (∃ (d : Definition) (ext : List (String × List String)),
      parseStructType goPrimitives nameFields "Widget" "" = some (d, ext) ∧
      d.Typ = "" ∧ d.Ref = "" ∧ d.AllOf = [] ∧ ¬ inOneShape d) ∧
    (∃ (d : Definition) (ext : List (String × List String)) (fragment : Definition),
      parseStructType goPrimitives anyFields "Widget" "" = some (d, ext) ∧
      propertyOf d "any" = some fragment ∧
      fragment.Typ = "" ∧ fragment.Ref = "" ∧ fragment.AllOf = [] ∧
      ¬ inOneShape fragment) := by
  have hnone : ∀ e : Definition, e.Typ = "" → e.Ref = "" → e.AllOf = [] → ¬ inOneShape e := by
    intro e h₁ h₂ h₃ hshape
    rcases hshape with h | h | h | h
    · exact h.1 h₁
    · exact h.1 h₂
    · have harr : e.Typ = "array" := h.1
      rw [h₁] at harr
      exact absurd harr (by decide)
    · exact h.1 h₃
  exact ⟨⟨_, _, rfl, rfl, rfl, rfl, hnone _ rfl rfl rfl⟩,
    ⟨_, _, _, rfl, rfl, rfl, rfl, rfl, hnone _ rfl rfl rfl⟩⟩

/-- Whatever the field types: what `parseArrayType` produces has type `array` and
`items` set; what `parseStructType` returns has neither type nor ref, with
`allOf` set exactly when a field is inlined; and every Definition found within
what either builder produces has at most one of type, ref and allOf set. -/
theorem produced_atMostOneShape (P : Primitives) :
    (∀ (Elt : Expr) (d : Definition), parseArrayType P Elt = some d →
      d.Typ = "array" ∧ d.Items.isSome = true ∧ d.Ref = "" ∧ d.AllOf = [] ∧
        ∀ e : Definition, Nested d e → atMostOneShape e) ∧
    (∀ (structType : List Field) (typeName typeDescription : String) (d : Definition)
      (ext : List (String × List String)),
      parseStructType P structType typeName typeDescription = some (d, ext) →
      d.Typ = "" ∧ d.Ref = "" ∧
        (structType.filter isInlined ≠ [] → d.AllOf ≠ []) ∧
        (structType.filter isInlined = [] → d.AllOf = [] ∧ d.Properties.isSome = true) ∧
        ∀ e : Definition, Nested d e → atMostOneShape e) := by
  constructor
  · intro Elt d h
    obtain ⟨h₁, h₂, h₃, h₄⟩ := parseArrayType_shape P Elt d h
    exact ⟨h₁, h₂, h₃, h₄.1, fun e he => atMostOneShape_of_fragment d e h₄ he⟩
  · intro structType typeName typeDescription d ext h
    obtain ⟨st, hst, _, hd⟩ :=
      parseStructType_eq P structType typeName typeDescription d ext h
    obtain ⟨f₁, _, f₃, f₄, f₅, f₆, f₇⟩ := parseFields_frame P structType _ st hst
    obtain ⟨hinl, _⟩ := parseFields_split P structType _ st hst
    simp only [initialState, List.nil_append] at hinl
    have hall : st.definition.AllOf = [] := by rw [f₁]; rfl
    have htyp : st.definition.Typ = "" := by rw [f₃]; rfl
    have href : st.definition.Ref = "" := by rw [f₄]; rfl
    have hitems : st.definition.Items = none := by rw [f₅]; rfl
    have hadd : st.definition.AdditionalProperties = none := by rw [f₆]; rfl
    have hshape := parseFields_shape P structType _ st hst (by
      intro m hm e he
      simp only [initialState, Option.some.injEq] at hm
      subst hm
      cases he)
    have hobject : ∀ e : Definition, Nested st.definition e → atMostOneShape e := by
      intro e he
      rcases Nested_inv _ e he with
        h₀ | ⟨i, hi, _⟩ | ⟨a, ha, _⟩ | ⟨m, hm, _⟩ | ⟨entries, key, v, hp, hmem, hn⟩
      · rw [h₀]
        exact ⟨Or.inl htyp, fun hne => absurd hall hne⟩
      · rw [hitems] at hi; cases hi
      · rw [hadd] at ha; cases ha
      · rw [hall] at hm; cases hm
      · exact atMostOneShape_of_fragment v e (hshape entries hp (key, v) hmem) hn
    have hrefs : ∀ m ∈ st.inlineDefinitions, ∀ e : Definition, Nested m e →
        atMostOneShape e := by
      intro m hm e he
      rw [hinl] at hm
      obtain ⟨field, _, rfl⟩ := List.mem_map.mp hm
      rw [Nested_leaf _ e rfl rfl rfl rfl he]
      exact ⟨Or.inl rfl, fun hne => absurd rfl hne⟩
    by_cases hil : st.inlineDefinitions.length = 0
    · rw [if_pos hil] at hd
      subst hd
      have hnone : structType.filter isInlined = [] := by
        have : st.inlineDefinitions = [] := List.length_eq_zero.mp hil
        rw [hinl] at this
        simpa using this
      exact ⟨htyp, href, fun hne => absurd hnone hne, fun _ => ⟨hall, f₇ rfl⟩, hobject⟩
    · rw [if_neg hil] at hd
      have hsome : structType.filter isInlined ≠ [] := by
        intro hnil
        apply hil
        rw [hinl, hnil]
        rfl
      have hne : st.inlineDefinitions ≠ [] := fun e => hil (by rw [e]; rfl)
      by_cases hm : mapLen st.definition.Properties = 0
      · have hd₂ : d = { Definition.new with AllOf := st.inlineDefinitions } := by
          rw [hd]
          simp [hm]
        refine ⟨(by rw [hd₂]; rfl), (by rw [hd₂]; rfl), fun _ => (by rw [hd₂]; exact hne),
          fun hnil => absurd hnil hsome, ?_⟩
        intro e he
        rcases Nested_inv d e he with
          h₀ | ⟨i, hi, _⟩ | ⟨a, ha, _⟩ | ⟨m, hmem, hn⟩ | ⟨entries, _, _, hp, _, _⟩
        · rw [h₀, hd₂]
          exact ⟨Or.inl rfl, fun _ => ⟨rfl, rfl⟩⟩
        · rw [hd₂] at hi; cases hi
        · rw [hd₂] at ha; cases ha
        · rw [hd₂] at hmem
          exact hrefs m hmem e hn
        · rw [hd₂] at hp; cases hp
      · have hd₂ : d = { Definition.new with
            AllOf := st.inlineDefinitions ++ [st.definition] } := by
          rw [hd]
          simp [hm]
        refine ⟨(by rw [hd₂]; rfl), (by rw [hd₂]; rfl), fun _ => (by rw [hd₂]; simp),
          fun hnil => absurd hnil hsome, ?_⟩
        intro e he
        rcases Nested_inv d e he with
          h₀ | ⟨i, hi, _⟩ | ⟨a, ha, _⟩ | ⟨m, hmem, hn⟩ | ⟨entries, _, _, hp, _, _⟩
        · rw [h₀, hd₂]
          exact ⟨Or.inl rfl, fun _ => ⟨rfl, rfl⟩⟩
        · rw [hd₂] at hi; cases hi
        · rw [hd₂] at ha; cases ha
        · rw [hd₂] at hmem
          rcases List.mem_append.mp hmem with hin | hobj
          · exact hrefs m hin e hn
          · rw [List.mem_singleton] at hobj
            rw [hobj] at hn
            exact hobject e hn
        · rw [hd₂] at hp; cases hp

/-! ## Exactly one shape -/

theorem getDefLink_ne (T : String) : getDefLink T ≠ "" := by
  intro h
  have hlen := congrArg String.length h
  have h₁ : ("#/definitions/" : String).length = 14 := by decide
  have h₂ : ("" : String).length = 0 := rfl
  simp only [getDefLink, defPrefix, String.length_append] at hlen
  omega

/-- No Definition is in two of the four shapes. -/
theorem shapes_exclusive (e : Definition) :
    ¬ (isLeaf e ∧ isReference e) ∧ ¬ (isLeaf e ∧ isArray e) ∧ ¬ (isLeaf e ∧ isComposite e) ∧
      ¬ (isReference e ∧ isArray e) ∧ ¬ (isReference e ∧ isComposite e) ∧
      ¬ (isArray e ∧ isComposite e) := by
  refine ⟨?_, ?_, ?_, ?_, ?_, ?_⟩
  · rintro ⟨⟨h₁, _⟩, ⟨_, h₂, _⟩⟩
    exact h₁ h₂
  · rintro ⟨⟨_, _, _, h₁⟩, ⟨_, h₂, _⟩⟩
    rw [h₁] at h₂
    cases h₂
  · rintro ⟨⟨_, _, h₁, _⟩, ⟨h₂, _⟩⟩
    exact h₂ h₁
  · rintro ⟨⟨_, h₁, _⟩, ⟨h₂, _⟩⟩
    rw [h₁] at h₂
    exact absurd h₂ (by decide)
  · rintro ⟨⟨_, _, h₁, _⟩, ⟨h₂, _⟩⟩
    exact h₂ h₁
  · rintro ⟨⟨_, _, _, h₁⟩, ⟨h₂, _⟩⟩
    exact h₂ h₁

theorem inOneShape_of_bareLeaf (i e : Definition) (hi : isBareLeaf i) (h : Nested i e) :
    inOneShape e := by
  obtain ⟨h₁, h₂, h₃, h₄, h₅⟩ := hi
  rw [Nested_leaf i e h₁ h₂ h₃ h₄ h]
  rcases h₅ with h₅ | h₅
  · exact Or.inl h₅
  · exact Or.inr (Or.inl h₅)

theorem inOneShape_of_ruled (v e : Definition) (hv : isRuledFragment v) (h : Nested v e) :
    inOneShape e := by
  obtain ⟨h₁, h₂, h₃, h₄, h₅⟩ := hv
  rcases Nested_inv v e h with
    h₀ | ⟨i, hi, hn⟩ | ⟨a, ha, hn⟩ | ⟨m, hm, _⟩ | ⟨entries, _, _, hp, _, _⟩
  · rw [h₀]
    rcases h₃ with h₃ | h₃ | h₃
    · exact Or.inl h₃
    · exact Or.inr (Or.inl h₃)
    · exact Or.inr (Or.inr (Or.inl h₃))
  · exact inOneShape_of_bareLeaf i e (h₄ i hi) hn
  · exact inOneShape_of_bareLeaf a e (h₅ a ha) hn
  · rw [h₁] at hm; cases hm
  · rw [h₂] at hp; cases hp

/-- The Definition of an identifier `T`: a leaf when `T` is a primitive, a
reference otherwise. -/
theorem identifier_bareLeaf (P : Primitives)
    (hP : ∀ T, P.isSimpleType T = true → T ≠ "" ∧ P.jsonifyType T ≠ "") (T : String) :
    isBareLeaf (if P.isSimpleType T = true then { Definition.new with Typ := P.jsonifyType T }
      else { Definition.new with Ref := getDefLink T }) := by
  by_cases hs : P.isSimpleType T = true
  · simp only [hs, if_true]
    exact ⟨rfl, rfl, rfl, rfl, Or.inl ⟨(hP T hs).2, rfl, rfl, rfl⟩⟩
  · simp only [hs, if_false]
    exact ⟨rfl, rfl, rfl, rfl, Or.inr ⟨getDefLink_ne T, rfl, rfl, rfl⟩⟩

/-- What `parseArrayType` returns is an array whose `items` is a bare leaf. -/
theorem parseArrayType_ruled (P : Primitives)
    (hP : ∀ T, P.isSimpleType T = true → T ≠ "" ∧ P.jsonifyType T ≠ "")
    (Elt : Expr) (d : Definition) (h : parseArrayType P Elt = some d) :
    isArray d ∧ isRuledFragment d := by
  unfold parseArrayType at h
  cases hname : getTypeNameOfArray Elt with
  | none => simp [hname] at h
  | some T =>
    simp only [hname, Option.some.injEq] at h
    subst h
    have harr : isArray { Definition.new with
        Items := some (if P.isSimpleType T = true then
            { Definition.new with Typ := P.jsonifyType T }
          else { Definition.new with Ref := getDefLink T }),
        Typ := "array" } := ⟨rfl, rfl, rfl, rfl⟩
    refine ⟨harr, rfl, rfl, Or.inr (Or.inr harr), ?_, ?_⟩
    · intro i hi
      simp only [Option.some.injEq] at hi
      subst hi
      exact identifier_bareLeaf P hP T
    · intro a ha
      cases ha

/-- Under a rule of the type switch the fragment is a leaf, a reference or an
array. -/
theorem classifyFieldType_ruled (P : Primitives)
    (hP : ∀ T, P.isSimpleType T = true → T ≠ "" ∧ P.jsonifyType T ≠ "")
    (fieldType : Expr) (ext₀ ext₁ : List (String × List String)) (property : Definition)
    (hrule : hasRule fieldType = true)
    (h : classifyFieldType P fieldType ext₀ = some (property, ext₁)) :
    isRuledFragment property := by
  have hsimple : ∀ T : String,
      (if P.isSimpleType T = true then
          some ({ Definition.new with Typ := P.jsonifyType T }, ext₀)
        else some ({ Definition.new with Ref := getDefLink T }, ext₀)) =
        some (property, ext₁) → isRuledFragment property := by
    intro T hif
    by_cases hs : P.isSimpleType T = true
    · simp only [hs, if_true, Option.some.injEq, Prod.mk.injEq] at hif
      rw [← hif.1]
      exact ⟨rfl, rfl, Or.inl ⟨(hP T hs).2, rfl, rfl, rfl⟩,
        fun i hi => (by cases hi), fun a ha => (by cases ha)⟩
    · rw [if_neg hs] at hif
      simp only [Option.some.injEq, Prod.mk.injEq] at hif
      rw [← hif.1]
      exact ⟨rfl, rfl, Or.inr (Or.inl ⟨getDefLink_ne T, rfl, rfl, rfl⟩),
        fun i hi => (by cases hi), fun a ha => (by cases ha)⟩
  have hobject : ("object" : String) ≠ "" := by decide
  cases fieldType with
  | Ident Name => exact hsimple Name h
  | StarExpr X =>
    cases X with
    | Ident Name => exact hsimple Name h
    | _ => cases hrule
  | ArrayType Elt =>
    simp only [classifyFieldType] at h
    cases harr : parseArrayType P Elt with
    | none => simp [harr] at h
    | some arrayDef =>
      simp only [harr, Option.some.injEq, Prod.mk.injEq] at h
      rw [← h.1]
      exact (parseArrayType_ruled P hP Elt arrayDef harr).2
  | MapType Key Value =>
    cases Value with
    | Ident Name =>
      simp only [classifyFieldType, Option.some.injEq, Prod.mk.injEq] at h
      rw [← h.1]
      refine ⟨rfl, rfl, Or.inl ⟨hobject, rfl, rfl, rfl⟩, fun i hi => (by cases hi), ?_⟩
      intro a ha
      simp only [Option.some.injEq] at ha
      subst ha
      by_cases hs : P.isSimpleType Name = true
      · simp only [hs, if_true]
        exact ⟨rfl, rfl, rfl, rfl, Or.inl ⟨(hP Name hs).1, rfl, rfl, rfl⟩⟩
      · simp only [hs, if_false]
        exact ⟨rfl, rfl, rfl, rfl, Or.inr ⟨getDefLink_ne Name, rfl, rfl, rfl⟩⟩
    | _ =>
      simp only [classifyFieldType, Option.some.injEq, Prod.mk.injEq] at h
      rw [← h.1]
      exact ⟨rfl, rfl, Or.inl ⟨hobject, rfl, rfl, rfl⟩,
        fun i hi => (by cases hi), fun a ha => (by cases ha)⟩
  | SelectorExpr X Sel =>
    cases X with
    | Ident Name =>
      simp only [classifyFieldType, Option.some.injEq, Prod.mk.injEq] at h
      rw [← h.1]
      exact ⟨rfl, rfl, Or.inr (Or.inl ⟨getDefLink_ne Sel, rfl, rfl, rfl⟩),
        fun i hi => (by cases hi), fun a ha => (by cases ha)⟩
    | _ => simp [classifyFieldType] at h
  | InterfaceType => cases hrule
  | other => cases hrule

/-- The loop keeps every entry of the properties a ruled fragment when every own
field has a type under a rule. -/
theorem parseFields_ruled (P : Primitives)
    (hP : ∀ T, P.isSimpleType T = true → T ≠ "" ∧ P.jsonifyType T ≠ "")
    (fields : List Field) :
    ∀ st st₂ : LoopState, parseFields P fields st = some st₂ →
      (∀ field ∈ fields, isOwn field = true → hasRule field.Type_ = true) →
      (∀ m, st.definition.Properties = some m → ∀ e ∈ m, isRuledFragment e.2) →
      ∀ m, st₂.definition.Properties = some m → ∀ e ∈ m, isRuledFragment e.2 := by
  induction fields with
  | nil =>
    intro st st₂ h _ hsh
    simp only [parseFields, Option.some.injEq] at h
    subst h
    exact hsh
  | cons field rest ih =>
    intro st st₂ h hrule hsh
    obtain ⟨st₁, h₁, h₂⟩ := parseFields_cons P field rest st st₂ h
    apply ih st₁ st₂ h₂ fun g hg => hrule g (List.mem_cons_of_mem _ hg)
    cases hin : isInlined field with
    | true =>
      rw [parseField_inlined P st st₁ field hin h₁]
      exact hsh
    | false =>
      obtain ⟨property, ext₁, m₀, hcl, hm₀, hst⟩ := parseField_own P st st₁ field hin h₁
      have hfr : hasRule field.Type_ = true :=
        hrule field (List.mem_cons_self _ _) (by simp [isOwn, hin])
      rw [hst]
      intro m hm e he
      simp only [Option.some.injEq] at hm
      subst hm
      rcases mem_mapSet m₀ _ _ e he with hold | hnew
      · exact hsh m₀ hm₀ e hold
      · rw [hnew]
        obtain ⟨s₁, s₂, s₃, s₄, s₅⟩ :=
          classifyFieldType_ruled P hP field.Type_ _ _ _ hfr hcl
        exact ⟨s₁, s₂, s₃, s₄, s₅⟩

/-- C16, as amended: with primitives of non-empty name mapped to non-empty names,
every Definition that `parseArrayType` produces, and every Definition that
`parseStructType` produces for a struct whose own fields have a type the type
switch has a rule for, every Definition found within it included, is in exactly
one of the four shapes (no Definition is in two), except the object Definition
of the struct, which has neither type, ref nor allOf: what `parseArrayType`
produces is an array, what `parseStructType` returns with an inlined field is a
composite.  Whatever the field types, no Definition produced has both type and
ref, or allOf together with one of them. -/
theorem produced_one_shape (P : Primitives)
    (hP : ∀ T, P.isSimpleType T = true → T ≠ "" ∧ P.jsonifyType T ≠ "") :
    (∀ e : Definition,
      ¬ (isLeaf e ∧ isReference e) ∧ ¬ (isLeaf e ∧ isArray e) ∧
        ¬ (isLeaf e ∧ isComposite e) ∧ ¬ (isReference e ∧ isArray e) ∧
        ¬ (isReference e ∧ isComposite e) ∧ ¬ (isArray e ∧ isComposite e)) ∧
    (∀ (Elt : Expr) (d : Definition), parseArrayType P Elt = some d →
      isArray d ∧ ∀ e : Definition, Nested d e → inOneShape e) ∧
    (∀ (structType : List Field) (typeName typeDescription : String) (d : Definition)
      (ext : List (String × List String)),
      parseStructType P structType typeName typeDescription = some (d, ext) →
      (∀ field ∈ structType, isOwn field = true → hasRule field.Type_ = true) →
      (structType.filter isInlined ≠ [] → isComposite d) ∧
        (structType.filter isInlined = [] ∨ structType.filter isOwn ≠ [] →
          (objectDefinition d).Typ = "" ∧ (objectDefinition d).Ref = "" ∧
            (objectDefinition d).AllOf = []) ∧
        ∀ e : Definition, Nested d e → inOneShape e ∨ e = objectDefinition d) ∧
    (∀ (structType : List Field) (typeName typeDescription : String) (d : Definition)
      (ext : List (String × List String)),
      parseStructType P structType typeName typeDescription = some (d, ext) →
      ∀ e : Definition, Nested d e → atMostOneShape e) := by
  refine ⟨shapes_exclusive, ?_, ?_, ?_⟩
  · intro Elt d h
    obtain ⟨h₁, h₂⟩ := parseArrayType_ruled P hP Elt d h
    exact ⟨h₁, fun e he => inOneShape_of_ruled d e h₂ he⟩
  · intro structType typeName typeDescription d ext h hrule
    obtain ⟨st, hst, _, hd⟩ :=
      parseStructType_eq P structType typeName typeDescription d ext h
    obtain ⟨f₁, _, f₃, f₄, f₅, f₆, _⟩ := parseFields_frame P structType _ st hst
    obtain ⟨hinl, _⟩ := parseFields_split P structType _ st hst
    simp only [initialState, List.nil_append] at hinl
    have hall : st.definition.AllOf = [] := by rw [f₁]; rfl
    have htyp : st.definition.Typ = "" := by rw [f₃]; rfl
    have href : st.definition.Ref = "" := by rw [f₄]; rfl
    have hitems : st.definition.Items = none := by rw [f₅]; rfl
    have hadd : st.definition.AdditionalProperties = none := by rw [f₆]; rfl
    have hshape := parseFields_ruled P hP structType _ st hst hrule (by
      intro m hm e he
      simp only [initialState, Option.some.injEq] at hm
      subst hm
      cases he)
    have hobject : ∀ e : Definition, Nested st.definition e →
        inOneShape e ∨ e = st.definition := by
      intro e he
      rcases Nested_inv _ e he with
        h₀ | ⟨i, hi, _⟩ | ⟨a, ha, _⟩ | ⟨m, hm, _⟩ | ⟨entries, key, v, hp, hmem, hn⟩
      · exact Or.inr h₀
      · rw [hitems] at hi; cases hi
      · rw [hadd] at ha; cases ha
      · rw [hall] at hm; cases hm
      · exact Or.inl (inOneShape_of_ruled v e (hshape entries hp (key, v) hmem) hn)
    have hrefs : ∀ m ∈ st.inlineDefinitions, ∀ e : Definition, Nested m e →
        inOneShape e := by
      intro m hm e he
      rw [hinl] at hm
      obtain ⟨field, _, rfl⟩ := List.mem_map.mp hm
      rw [Nested_leaf _ e rfl rfl rfl rfl he]
      exact Or.inr (Or.inl ⟨getDefLink_ne _, rfl, rfl, rfl⟩)
    by_cases hil : st.inlineDefinitions.length = 0
    · rw [if_pos hil] at hd
      subst hd
      have hnone : structType.filter isInlined = [] := by
        have : st.inlineDefinitions = [] := List.length_eq_zero.mp hil
        rw [hinl] at this
        simpa using this
      have hobj : objectDefinition st.definition = st.definition := by
        simp [objectDefinition, hall]
      rw [hobj]
      exact ⟨fun hne => absurd hnone hne, fun _ => ⟨htyp, href, hall⟩, hobject⟩
    · rw [if_neg hil] at hd
      have hsome : structType.filter isInlined ≠ [] := by
        intro hnil
        apply hil
        rw [hinl, hnil]
        rfl
      have hne : st.inlineDefinitions ≠ [] := fun e => hil (by rw [e]; rfl)
      by_cases hm : mapLen st.definition.Properties = 0
      · have hd₂ : d = { Definition.new with AllOf := st.inlineDefinitions } := by
          rw [hd]
          simp [hm]
        have hown : structType.filter isOwn = [] := by
          by_contra hcon
          exact parseFields_mapLen P structType _ st hst (Or.inr hcon) hm
        have hcomp : isComposite d := by
          rw [hd₂]
          exact ⟨hne, rfl, rfl, rfl⟩
        refine ⟨fun _ => hcomp, ?_, ?_⟩
        · rintro (hnil | hcon)
          · exact absurd hnil hsome
          · exact absurd hown hcon
        · intro e he
          rcases Nested_inv d e he with
            h₀ | ⟨i, hi, _⟩ | ⟨a, ha, _⟩ | ⟨m, hmem, hn⟩ | ⟨entries, _, _, hp, _, _⟩
          · rw [h₀]
            exact Or.inl (Or.inr (Or.inr (Or.inr hcomp)))
          · rw [hd₂] at hi; cases hi
          · rw [hd₂] at ha; cases ha
          · rw [hd₂] at hmem
            exact Or.inl (hrefs m hmem e hn)
          · rw [hd₂] at hp; cases hp
      · have hd₂ : d = { Definition.new with
            AllOf := st.inlineDefinitions ++ [st.definition] } := by
          rw [hd]
          simp [hm]
        have hcomp : isComposite d := by
          rw [hd₂]
          exact ⟨by simp, rfl, rfl, rfl⟩
        have hobj : objectDefinition d = st.definition := by
          rw [hd₂]
          simp [objectDefinition]
        rw [hobj]
        refine ⟨fun _ => hcomp, fun _ => ⟨htyp, href, hall⟩, ?_⟩
        intro e he
        rcases Nested_inv d e he with
          h₀ | ⟨i, hi, _⟩ | ⟨a, ha, _⟩ | ⟨m, hmem, hn⟩ | ⟨entries, _, _, hp, _, _⟩
        · rw [h₀]
          exact Or.inl (Or.inr (Or.inr (Or.inr hcomp)))
        · rw [hd₂] at hi; cases hi
        · rw [hd₂] at ha; cases ha
        · rw [hd₂] at hmem
          rcases List.mem_append.mp hmem with hin | hlast
          · exact Or.inl (hrefs m hin e hn)
          · rw [List.mem_singleton] at hlast
            rw [hlast] at hn
            exact hobject e hn
        · rw [hd₂] at hp; cases hp
  · intro structType typeName typeDescription d ext h
    exact ((produced_atMostOneShape P).2 structType typeName typeDescription d ext h).2.2.2.2

theorem goPrimitives_named (T : String) (h : goPrimitives.isSimpleType T = true) :
    T ≠ "" ∧ goPrimitives.jsonifyType T ≠ "" := by
  have hcases : T = "string" ∨ T = "int" ∨ T = "bool" := by
    simpa [goPrimitives, or_assoc] using h
  rcases hcases with rfl | rfl | rfl <;> exact ⟨by decide, by decide⟩

/-- C16 as amended, on the struct `Widget`, a composite whose members and property
fragments are each in one shape, and on the array type `[]*Widget`. -/
theorem produced_one_shape_witness :
    (∃ (d : Definition) (ext : List (String × List String)),
      parseStructType goPrimitives widgetFields "Widget" "" = some (d, ext) ∧
      isComposite d ∧ (objectDefinition d).Typ = "" ∧
      isReference { Definition.new with Ref := "#/definitions/Base" } ∧
      (∀ e : Definition, Nested d e → inOneShape e ∨ e = objectDefinition d)) ∧
    (∃ d : Definition,
      parseArrayType goPrimitives (.StarExpr (.Ident "Widget")) = some d ∧ isArray d ∧
      ∀ e : Definition, Nested d e → inOneShape e) := by
  have hall := produced_one_shape goPrimitives goPrimitives_named
  constructor
  · obtain ⟨h₁, h₂, h₃⟩ := hall.2.2.1 widgetFields "Widget" "" _ _ rfl (by
      intro field hf _
      simp only [widgetFields, List.mem_cons, List.mem_singleton, List.not_mem_nil,
        or_false] at hf
      rcases hf with rfl | rfl | rfl | rfl | rfl <;> rfl)
    have hne : widgetFields.filter isInlined ≠ [] :=
      fun hnil => absurd (congrArg List.length hnil) (by decide)
    refine ⟨_, _, rfl, h₁ hne, (h₂ (Or.inr fun hnil =>
      absurd (congrArg List.length hnil) (by decide))).1, ?_, h₃⟩
    exact ⟨by decide, rfl, rfl, rfl⟩
  · obtain ⟨h₁, h₂⟩ := hall.2.1 (.StarExpr (.Ident "Widget")) _ rfl
    exact ⟨_, rfl, h₁, h₂⟩

end GoSchema
